import Mathlib

/-!
Verification development for the polysat bit-vector propagation core
(src/math/polysat/viable.cpp and src/math/polysat/linear_solver.cpp,
NEW_VIABLE configuration).

The first part embeds the viable-domain tracker: the interval domain
(`ViableSet`, the mod_interval representation described in the spec, whose
header is not part of the two translated source files), the closed-form and
budgeted narrowing operations of viable.cpp, and the per-variable tracker
state (`VState`).

The second part embeds the linear solver: the trail, the monomial interning
table, the per-width feasibility engines (an external component, modelled
from the spec at its interface), and the push/pop machinery.
-/

namespace Polysat

/-- Modelled from the spec: the interval representation of a viable domain
(the mod_interval template of math/interval, which is not among the
translated sources).  A domain over the numBits-bit ring is an interval
lo..hi, where hi = 0 wraps to the top of the range, lo = hi means free
(no exclusion), plus an explicit emptiness flag. -/
structure ViableSet where
  numBits : Nat
  emp : Bool
  lo : Nat
  hi : Nat
deriving DecidableEq

namespace ViableSet

/-- 2^numBits, as in viable.h. -/
def p2 (s : ViableSet) : Nat := 2 ^ s.numBits

/-- Modelled from the spec: a domain is empty iff its emptiness flag is set. -/
def is_empty (s : ViableSet) : Bool := s.emp

/-- Modelled from the spec: free means no exclusion, represented by lo = hi. -/
def is_free (s : ViableSet) : Bool := !s.emp && (s.lo == s.hi)

/-- Modelled from the spec: membership in the possibly wrap-around interval.
An empty domain contains nothing, a free one everything; lo < hi is the
plain half-open interval, and otherwise the interval wraps past the top. -/
def contains (s : ViableSet) (n : Nat) : Bool :=
  if s.emp then false
  else if s.lo == s.hi then true
  else if s.lo < s.hi then decide (s.lo ≤ n) && decide (n < s.hi)
  else decide (s.lo ≤ n) || decide (n < s.hi)

/-- Modelled from the spec: emptying a domain sets the emptiness flag. -/
def set_empty (s : ViableSet) : ViableSet := { s with emp := true }

/-- viable.cpp, viable_set::is_max. -/
def is_max (s : ViableSet) (a : Nat) : Bool := a + 1 == 2 ^ s.numBits

/-- viable.cpp, viable_set::is_singleton. -/
def is_singleton (s : ViableSet) : Bool :=
  !s.is_empty && (s.lo + 1 == s.hi || (s.hi == 0 && s.is_max s.lo))

/-- viable.cpp, viable_set::set_hi.  The branch that prints a diagnostic
leaves the state unchanged. -/
def set_hi (s : ViableSet) (d : Nat) : ViableSet :=
  if s.is_max d then s
  else if s.is_free then { s with lo := 0, hi := d + 1 }
  else if d < s.lo then s.set_empty
  else if s.hi ≠ 0 ∨ d + 1 < s.hi then { s with hi := d + 1 }
  else if d + 1 = s.hi then s
  else s

/-- viable.cpp, viable_set::set_lo.  The branch that prints a diagnostic
leaves the state unchanged. -/
def set_lo (s : ViableSet) (b : Nat) : ViableSet :=
  if s.hi ≠ 0 ∧ s.hi ≤ b then s.set_empty
  else if s.is_free then { s with lo := b, hi := 0 }
  else if s.lo < b then { s with lo := b }
  else s

/-- viable.cpp, the unary viable_set::intersect_eq(a, is_positive): intersect
with the point a (positive) or its complement (negative).  The disequality
branch that prints "unhandled diseq" leaves the state unchanged. -/
def intersect_eq1 (s : ViableSet) (a : Nat) (pos : Bool) : ViableSet :=
  if s.is_empty then s
  else if pos then
    if ¬ s.contains a then s.set_empty
    else if s.is_max a then { s with lo := a, hi := 0 }
    else { s with lo := a, hi := a + 1 }
  else
    if ¬ s.contains a then s
    else if a = s.lo ∧ a + 1 = s.hi then s.set_empty
    else if a = s.lo ∧ s.hi = 0 ∧ s.is_max a then s.set_empty
    else if a = s.lo ∧ ¬ s.is_max a then { s with lo := a + 1 }
    else if a + 1 = s.hi then { s with hi := a }
    else if s.hi = 0 ∧ s.is_max a then { s with hi := a }
    else s

/-- Modelled from the spec: viable.h routes set_ne (exclusion of a single
point, the set_disequal operation) to the disequality case of the unary
intersect_eq. -/
def set_ne (s : ViableSet) (a : Nat) : ViableSet := s.intersect_eq1 a false

end ViableSet

/-- Bounded search for a multiplicative inverse of a modulo n: the largest
candidate below the fuel satisfying a·k = 1 (mod n), or 0 when none
exists. -/
def invSearch (a n : Nat) : Nat → Nat
  | 0 => 0
  | k + 1 => if (a * k) % n = 1 % n then k else invSearch a n k

/-- The multiplicative inverse of a modulo 2^w; embeds
rational::mult_inverse (the rational library is an external collaborator),
which the source VERIFYs to succeed for odd a.  The inverse modulo 2^w is
unique in [0, 2^w), so the bounded search returns exactly it. -/
def mult_inverse (a w : Nat) : Nat := invSearch a (2 ^ w) (2 ^ w)

/-- The unique solution a⁻¹·(−b) mod 2^w used by the closed-form equality
narrowing of viable.cpp. -/
def solOf (a b w : Nat) : Nat :=
  (((mult_inverse a w : Int) * (-(b : Int))) % ((2 ^ w : Nat) : Int)).toNat

namespace ViableSet

/-- viable.cpp, the binary viable_set::intersect_eq(a, b, is_positive): the
O(1) closed-form path, applicable when a is odd; returns false (leaving the
domain untouched) otherwise. -/
def intersect_eq2 (s : ViableSet) (a b : Nat) (pos : Bool) : Bool × ViableSet :=
  if a % 2 = 1 then
    if b = 0 then (true, s.intersect_eq1 b pos)
    else (true, s.intersect_eq1 (solOf a b s.numBits) pos)
  else (false, s)

/-- viable.cpp, first loop of viable_set::narrow: raise lo past points where
the evaluation predicate fails, spending one unit of budget per step. -/
def narrowLo (ev : Nat → Bool) : Nat → ViableSet → ViableSet × Nat
  | 0, s => (s, 0)
  | bud + 1, s =>
    if ev s.lo = false ∧ s.is_max s.lo = false ∧ s.is_empty = false then
      narrowLo ev bud (ViableSet.set_lo { s with lo := s.lo + 1 } (s.lo + 1))
    else (s, bud + 1)

/-- viable.cpp, second loop of viable_set::narrow: lower hi past points where
the evaluation predicate fails, spending one unit of budget per step. -/
def narrowHi (ev : Nat → Bool) : Nat → ViableSet → ViableSet × Nat
  | 0, s => (s, 0)
  | bud + 1, s =>
    if 0 < s.hi ∧ ev (s.hi - 1) = false ∧ s.is_empty = false then
      narrowHi ev bud (ViableSet.set_hi { s with hi := s.hi - 1 } (s.hi - 1))
    else (s, bud + 1)

/-- viable.cpp, viable_set::narrow: both loops, sharing one budget. -/
def narrow (ev : Nat → Bool) (bud : Nat) (s : ViableSet) : ViableSet × Nat :=
  narrowHi ev (narrowLo ev bud s).2 (narrowLo ev bud s).1

end ViableSet

/-- The evaluation lambda of the budgeted viable_set::intersect_eq:
is_positive == (mod(a*x + b, p2()) == 0). -/
def evalEqC (a b w : Nat) (pos : Bool) (x : Nat) : Bool :=
  pos == decide ((a * x + b) % 2 ^ w = 0)

/-- The evaluation lambda of the budgeted viable_set::intersect_ule:
is_positive == (mod(a*x + b, p2()) <= mod(c*x + d, p2())). -/
def evalUleC (a b c d w : Nat) (pos : Bool) (x : Nat) : Bool :=
  pos == decide ((a * x + b) % 2 ^ w ≤ (c * x + d) % 2 ^ w)

namespace ViableSet

/-- viable.cpp, the budgeted viable_set::intersect_eq(a, b, is_positive,
budget): point-wise narrowing by the equality predicate. -/
def intersect_eq_budget (s : ViableSet) (a b : Nat) (pos : Bool) (bud : Nat) :
    ViableSet × Nat :=
  s.narrow (evalEqC a b s.numBits pos) bud

/-- viable.cpp, viable_set::intersect_ule(a, b, c, d, is_positive): the three
closed-form shapes; returns false (leaving the domain untouched) when none
applies. -/
def intersect_ule_fast (s : ViableSet) (a b c d : Nat) (pos : Bool) :
    Bool × ViableSet :=
  if a % 2 = 1 ∧ b = 0 ∧ c = 0 ∧ d = 0 then (true, s.intersect_eq1 b pos)
  else if a = 1 ∧ b = 0 ∧ c = 0 then
    if pos then (true, s.set_hi d)
    else if s.is_max d then (true, s.set_empty)
    else (true, s.set_lo (d + 1))
  else if a = 0 ∧ c = 1 ∧ d = 0 then
    if pos then (true, s.set_lo b)
    else if b = 0 then (true, s.set_empty)
    else (true, s.set_hi (b - 1))
  else (false, s)

/-- viable.cpp, the budgeted viable_set::intersect_ule(a, b, c, d,
is_positive, budget): point-wise narrowing by the ordering predicate. -/
def intersect_ule_budget (s : ViableSet) (a b c d : Nat) (pos : Bool)
    (bud : Nat) : ViableSet × Nat :=
  s.narrow (evalUleC a b c d s.numBits pos) bud

end ViableSet

/-- Well-formedness of an interval domain: bounds below 2^numBits and no
proper wrap-around representation (hi = 0 encodes wrapping to the top).
Every domain produced by the viable.cpp operations from the initial free
domain satisfies this. -/
def VSwf (s : ViableSet) : Prop :=
  s.emp = true ∨
    (s.lo < 2 ^ s.numBits ∧ s.hi < 2 ^ s.numBits ∧ (s.hi = 0 ∨ s.lo < s.hi))

instance (s : ViableSet) : Decidable (VSwf s) := by
  unfold VSwf; infer_instance

/-! ## The viable-domain tracker (viable.cpp, class viable) -/

/-- State of the viable tracker: the per-variable domains and the dedicated
viable trail of saved prior domains (most recent first).  The conflict
callback s.set_conflict is an external collaborator; the operations below
return the notification they would issue alongside the new state. -/
structure VState where
  m_viable : Nat → ViableSet
  m_viable_trail : List (Nat × ViableSet)

/-- viable.cpp, viable::push_viable: save the current domain of v on the
viable trail (the accompanying viable_i marker goes to the surrounding
solver's trail, which is outside the translated sources). -/
def push_viable (v : Nat) (st : VState) : VState :=
  { st with m_viable_trail := (v, st.m_viable v) :: st.m_viable_trail }

/-- viable.cpp, viable::pop_viable: restore the most recently saved domain. -/
def pop_viable (st : VState) : VState :=
  match st.m_viable_trail with
  | [] => st
  | (v, vs) :: rest =>
    { st with m_viable := Function.update st.m_viable v vs, m_viable_trail := rest }

/-- Iterated pop_viable, as driven by the surrounding solver's pop. -/
def pop_viableN : Nat → VState → VState
  | 0, st => st
  | n + 1, st => pop_viableN n (pop_viable st)

/-- The predicate of values violating the asserted ordering constraint: the
source builds gt as the negation (positive polarity) or the identity
(negative polarity) of the le decision diagram, which is the negation of
the evaluation predicate in both cases. -/
def bddGt (a b c d w : Nat) (pos : Bool) (x : Nat) : Bool :=
  !(evalUleC a b c d w pos x)

/-- Helper for the modelled dd::fdd::sup: climb from x while the predicate
holds on the next value, staying below 2^w. -/
def supAscend (p : Nat → Bool) (w : Nat) : Nat → Nat → Nat
  | 0, x => x
  | fuel + 1, x =>
    if x + 1 < 2 ^ w ∧ p (x + 1) = true then supAscend p w fuel (x + 1)
    else x

/-- Modelled from the spec: dd::fdd::sup (the decision-diagram engine is an
external collaborator).  Starting from bound, it reports the largest value
of the contiguous run of predicate-satisfying values beginning at bound
("find min x >= lo, such that le(x) is false, le(x+1) is true"), failing if
the predicate does not even hold at bound. -/
def fddSup (p : Nat → Bool) (w bound : Nat) : Option Nat :=
  if p bound = true then some (supAscend p w (2 ^ w) bound) else none

/-- The new domain computed by viable::intersect_eq(a, v, b, is_positive):
the closed-form path when it applies, otherwise the budgeted point-wise
search with budget 10 (budget exhaustion only prints "budget used"; the
comment "then narrow the range using BDDs" is not implemented, so the
searched domain is kept as is). -/
def eqNewDomain (V : ViableSet) (a b : Nat) (pos : Bool) : ViableSet :=
  let r := V.intersect_eq2 a b pos
  if r.1 then r.2 else (r.2.intersect_eq_budget a b pos 10).1

/-- viable.cpp, viable::intersect_eq(a, v, b, is_positive): push the prior
domain and replace it by the narrowed one.  Returns the new state together
with the conflict notification, if any (the source calls s.set_conflict(v)
when the domain became empty). -/
def viable_intersect_eq (a v b : Nat) (pos : Bool) (st : VState) :
    VState × Option Nat :=
  let st1 := push_viable v st
  let v2 := eqNewDomain (st1.m_viable v) a b pos
  let st2 := { st1 with m_viable := Function.update st1.m_viable v v2 }
  (st2, if v2.is_empty then some v else none)

/-- The decision-diagram fallback of viable::intersect_ule, entered when the
budget is exhausted: refine the lower bound through the modelled sup and
exclude its endpoint; the symmetric upper-bound refinement via inf only
prints a TODO and performs no state change, and the inequality-template
cache only memoizes the diagram, not affecting the domain. -/
def uleBddRefine (V : ViableSet) (a b c d : Nat) (pos : Bool) : ViableSet :=
  match fddSup (bddGt a b c d V.numBits pos) V.numBits V.lo with
  | some bnd => (V.set_lo bnd).set_ne bnd
  | none => V

/-- The new domain computed by viable::intersect_ule(v, a, b, c, d,
is_positive): the closed-form shapes when one applies, otherwise the
budgeted search with budget 10, followed on budget exhaustion by the
decision-diagram lower-bound refinement. -/
def uleNewDomain (V : ViableSet) (a b c d : Nat) (pos : Bool) : ViableSet :=
  let r := V.intersect_ule_fast a b c d pos
  if r.1 then r.2
  else
    let nr := r.2.intersect_ule_budget a b c d pos 10
    if nr.2 = 0 then uleBddRefine nr.1 a b c d pos
    else nr.1

/-- viable.cpp, viable::intersect_ule(v, a, b, c, d, is_positive): push the
prior domain and replace it by the narrowed one.  Returns the new state
together with the conflict notification, if any. -/
def viable_intersect_ule (v a b c d : Nat) (pos : Bool) (st : VState) :
    VState × Option Nat :=
  let st1 := push_viable v st
  let v2 := uleNewDomain (st1.m_viable v) a b c d pos
  let st2 := { st1 with m_viable := Function.update st1.m_viable v v2 }
  (st2, if v2.is_empty then some v else none)

/-- viable.cpp, viable::add_non_viable(v, val): push the prior domain and
exclude the single point val. -/
def viable_add_non_viable (v val : Nat) (st : VState) : VState × Option Nat :=
  let st1 := push_viable v st
  let v2 := (st1.m_viable v).set_ne val
  let st2 := { st1 with m_viable := Function.update st1.m_viable v v2 }
  (st2, if v2.is_empty then some v else none)

/-- The modular semantics of an asserted equality constraint
a·x + b = 0 (positive) or a·x + b ≠ 0 (negative) at width w. -/
def eqSat (a b w : Nat) (pos : Bool) (x : Nat) : Prop :=
  pos = true ↔ (a * x + b) % 2 ^ w = 0

/-- The modular semantics of an asserted ordering constraint
a·x + b ≤ c·x + d (positive) or its negation (negative) at width w. -/
def uleSat (a b c d w : Nat) (pos : Bool) (x : Nat) : Prop :=
  pos = true ↔ (a * x + b) % 2 ^ w ≤ (c * x + d) % 2 ^ w

instance (a b w : Nat) (pos : Bool) (x : Nat) : Decidable (eqSat a b w pos x) := by
  unfold eqSat; infer_instance

instance (a b c d w : Nat) (pos : Bool) (x : Nat) : Decidable (uleSat a b c d w pos x) := by
  unfold uleSat; infer_instance

/-! ## The linear solver (linear_solver.cpp) -/

/-- linear_solver.h trail entry kinds. -/
inductive TrailI
  | inc_level
  | add_var
  | add_mono
  | set_bound
  | add_row
  | add_ineq
deriving DecidableEq

/-- The tag of the concrete per-width tableau instantiation allocated by
sz2fixplex: fixplex over generic_uint_ext of unsigned, over uint64_ext, or
over generic_uint_ext of u256. -/
inductive EngineKind
  | u32
  | u64
  | u256
deriving DecidableEq

/-- Modelled from the spec: a per-width feasibility engine ("fixplex", an
external component consumed as a black box), at the interface of spec
section 4.4: rows, bounds with a LIFO restore history, directed inequality
edges, and the undo counterparts restore_bound/del_row/restore_ineq called
in exact reverse order of the trail. -/
structure Fixplex where
  kind : EngineKind
  rows : List (Nat × List Nat × List Nat)
  bounds : Nat → Option (Nat × Nat)
  bhist : List (Nat × Option (Nat × Nat))
  ineqs : List (Nat × Nat × Bool)

/-- A freshly allocated engine. -/
def emptyFixplex (k : EngineKind) : Fixplex := ⟨k, [], fun _ => none, [], []⟩

/-- Remove the most recent row of variable v. -/
def delRowList (v : Nat) : List (Nat × List Nat × List Nat) →
    List (Nat × List Nat × List Nat)
  | [] => []
  | r :: rest => if r.1 = v then rest else r :: delRowList v rest

namespace Fixplex

/-- Modelled from the spec: add_row. -/
def add_row (v : Nat) (vars coeffs : List Nat) (fp : Fixplex) : Fixplex :=
  { fp with rows := (v, vars, coeffs) :: fp.rows }

/-- Modelled from the spec: del_row, the undo counterpart of add_row under
the LIFO trail discipline. -/
def del_row (v : Nat) (fp : Fixplex) : Fixplex :=
  { fp with rows := delRowList v fp.rows }

/-- Modelled from the spec: set_bounds, saving the prior bound for
restore_bound. -/
def set_bounds (v lo hi : Nat) (fp : Fixplex) : Fixplex :=
  { fp with bounds := Function.update fp.bounds v (some (lo, hi)),
            bhist := (v, fp.bounds v) :: fp.bhist }

/-- Modelled from the spec: restore_bound, the LIFO undo of set_bounds. -/
def restore_bound (fp : Fixplex) : Fixplex :=
  match fp.bhist with
  | [] => fp
  | (v, old) :: rest =>
    { fp with bounds := Function.update fp.bounds v old, bhist := rest }

/-- Modelled from the spec: set_value, a bound update (so that
restore_bound is its undo counterpart, as the trail dispatch requires). -/
def set_value (v value : Nat) (fp : Fixplex) : Fixplex :=
  fp.set_bounds v value value

/-- Modelled from the spec: add_le, a directed less-or-equal edge. -/
def add_le (v w : Nat) (fp : Fixplex) : Fixplex :=
  { fp with ineqs := (v, w, false) :: fp.ineqs }

/-- Modelled from the spec: add_lt, a directed strict-less edge. -/
def add_lt (v w : Nat) (fp : Fixplex) : Fixplex :=
  { fp with ineqs := (v, w, true) :: fp.ineqs }

/-- Modelled from the spec: restore_ineq, the LIFO undo of add_le/add_lt. -/
def restore_ineq (fp : Fixplex) : Fixplex :=
  { fp with ineqs := fp.ineqs.tail }

end Fixplex

/-- The polynomial operand interface consumed from the surrounding solver
(an opaque sum of monomials with a fixed bit width, external per the
spec): each monomial is a coefficient with an ordered sequence of problem
variables; a value polynomial has no proper monomials. -/
structure Pdd where
  width : Nat
  monos : List (Nat × List Nat)
deriving DecidableEq

/-- pdd::is_val: the polynomial is a constant. -/
def Pdd.is_val (p : Pdd) : Bool := p.monos.all (fun m => m.2.isEmpty)

/-- pdd::val: the constant value of a value polynomial. -/
def Pdd.val (p : Pdd) : Nat := (p.monos.headD (0, [])).1

/-- linear_solver.h, mono_info: an interned monomial, keyed by its width
and variable sequence, mapped to its internal variable. -/
structure MonoInfo where
  sz : Nat
  vars : List Nat
  var : Nat
deriving DecidableEq

/-- The exceptions of the translated code, kept distinguishable:
NOT_IMPLEMENTED_YET for unsupported widths, the "conflict not implemented"
default_exception of assert_le, and out-of-range activation of an
unregistered constraint. -/
inductive LinError
  | notImplemented
  | conflictNotImplemented
  | usage
deriving DecidableEq

/-- linear_solver.h state: the trail, the (var, width) undo rows, the
per-width variable counters, the monomial interning table and insertion
list, the sparse engine table indexed by width, and the boolean-variable
to row mapping.  m_created is a ghost field recording the order in which
engines were allocated; it has no counterpart in the C++ state and exists
only to state the iteration-order property of check(). -/
structure LState where
  m_trail : List TrailI
  m_rows : List (Nat × Nat)
  m_sz2num_vars : Nat → Nat
  m_mono2var : List MonoInfo
  m_monomials : List MonoInfo
  m_fix : List (Option Fixplex)
  m_bool_var2row : Nat → Option (Nat × Nat)
  m_created : List Nat

/-- Hash-table lookup by exact (width, variable-sequence) key. -/
def findMono (sz : Nat) (vars : List Nat) (tbl : List MonoInfo) : Option MonoInfo :=
  tbl.find? (fun m => m.sz == sz && m.vars == vars)

/-- Hash-table erase by exact key (removes the first entry with the key). -/
def eraseMono (sz : Nat) (vars : List Nat) : List MonoInfo → List MonoInfo
  | [] => []
  | m :: rest => if m.sz = sz ∧ m.vars = vars then rest else m :: eraseMono sz vars rest

/-- Sparse-vector write with default padding, as m_fix.set. -/
def setFix (l : List (Option Fixplex)) (sz : Nat) (b : Option Fixplex) :
    List (Option Fixplex) :=
  (l ++ List.replicate (sz + 1 - l.length) none).set sz b

/-- Sparse-vector read with null default, as m_fix.get(sz, nullptr). -/
def getFix (s : LState) (sz : Nat) : Option Fixplex := s.m_fix.getD sz none

/-- Store the (mutated) engine back into the table. -/
def putFix (sz : Nat) (fp : Fixplex) (s : LState) : LState :=
  { s with m_fix := setFix s.m_fix sz (some fp) }

/-- Allocate a fresh engine for a width (recording the ghost creation
order). -/
def allocFix (sz : Nat) (k : EngineKind) (s : LState) : Fixplex × LState :=
  (emptyFixplex k,
   { s with m_fix := setFix s.m_fix sz (some (emptyFixplex k)),
            m_created := s.m_created ++ [sz] })

/-- linear_solver.cpp, sz2fixplex: lazily construct the engine for a width
on first use; widths 32, 64 and 256 get their concrete instantiations,
width 128 and every other width hit NOT_IMPLEMENTED_YET. -/
def sz2fixplex (sz : Nat) (s : LState) : Except LinError (Fixplex × LState) :=
  match getFix s sz with
  | some b => .ok (b, s)
  | none =>
    if sz = 32 then .ok (allocFix sz .u32 s)
    else if sz = 64 then .ok (allocFix sz .u64 s)
    else if sz = 128 then .error .notImplemented
    else if sz = 256 then .ok (allocFix sz .u256 s)
    else .error .notImplemented

/-- linear_solver.cpp, fresh_var: allocate the next internal variable of a
width, trail-logged (the m_rows entry of an add_var records a dummy
variable 0 and the width). -/
def fresh_var (sz : Nat) (s : LState) : Nat × LState :=
  (s.m_sz2num_vars sz,
   { s with m_trail := .add_var :: s.m_trail,
            m_rows := (0, sz) :: s.m_rows,
            m_sz2num_vars :=
              Function.update s.m_sz2num_vars sz (s.m_sz2num_vars sz + 1) })

/-- linear_solver.cpp, mono2var: intern a monomial by exact key, allocating
a fresh variable and trail-logging on a miss. -/
def mono2var (sz : Nat) (vars : List Nat) (s : LState) : Nat × LState :=
  match findMono sz vars s.m_mono2var with
  | some m1 => (m1.var, s)
  | none =>
    let r := fresh_var sz s
    let m : MonoInfo := ⟨sz, vars, r.1⟩
    (r.1, { r.2 with m_mono2var := m :: r.2.m_mono2var,
                     m_monomials := m :: r.2.m_monomials,
                     m_trail := .add_mono :: r.2.m_trail })

/-- linear_solver.cpp, pvar2var: a problem variable as the one-element
monomial of itself. -/
def pvar2var (sz : Nat) (v : Nat) (s : LState) : Nat × LState := mono2var sz [v] s

/-- linear_solver.cpp, linearize: intern each monomial of the polynomial in
order, collecting internal variables and coefficients. -/
def linearize (sz : Nat) : List (Nat × List Nat) → LState →
    List Nat × List Nat × LState
  | [], s => ([], [], s)
  | m :: rest, s =>
    let r := mono2var sz m.2 s
    let q := linearize sz rest r.2
    (r.1 :: q.1, m.1 :: q.2.1, q.2.2)

/-- linear_solver.cpp, internalize_pdd: a single monomial with coefficient 1
is reused directly; otherwise a fresh variable v is allocated and the row
v plus (2^sz - 1)-weighted combination is added to the width's engine. -/
def internalize_pdd (p : Pdd) (s : LState) : Except LinError (Nat × LState) :=
  let sz := p.width
  let r := linearize sz p.monos s
  if r.1.length = 1 ∧ r.2.1.getLast? = some 1 then .ok (r.1.getLastD 0, r.2.2)
  else
    let f := fresh_var sz r.2.2
    match sz2fixplex sz f.2 with
    | .error e => .error e
    | .ok (fp, s2) =>
      let s3 := putFix sz (fp.add_row f.1 (r.1 ++ [f.1]) (r.2.1 ++ [2 ^ sz - 1])) s2
      .ok (f.1, { s3 with m_rows := (f.1, sz) :: s3.m_rows,
                          m_trail := .add_row :: s3.m_trail })

/-- An equality constraint: boolean variable, polynomial, polarity once
activated. -/
structure EqC where
  bvar : Nat
  p : Pdd
  pos : Bool
deriving DecidableEq

/-- An unsigned-less-or-equal constraint: boolean variable, both polynomial
operands, polarity once activated. -/
structure UleC where
  bvar : Nat
  lhs : Pdd
  rhs : Pdd
  pos : Bool
deriving DecidableEq

/-- linear_solver.cpp, new_eq: internalize and record the structural
mapping (the same variable on both sides). -/
def new_eq (c : EqC) (s : LState) : Except LinError LState :=
  match internalize_pdd c.p s with
  | .error e => .error e
  | .ok (v, s1) =>
    .ok { s1 with
      m_bool_var2row := Function.update s1.m_bool_var2row c.bvar (some (v, v)) }

/-- linear_solver.cpp, assert_eq: bound the registered row variable to
exactly 0 positively or to the proxy range starting at 1 negatively.
Activating an unregistered constraint is a usage error (an out-of-range
access in the source). -/
def assert_eq (c : EqC) (s : LState) : Except LinError LState :=
  match s.m_bool_var2row c.bvar with
  | none => .error .usage
  | some vw =>
    let sz := c.p.width
    match sz2fixplex sz s with
    | .error e => .error e
    | .ok (fp, s1) =>
      .ok (putFix sz (if c.pos then fp.set_bounds vw.1 0 0 else fp.set_bounds vw.1 1 0)
        { s1 with m_trail := .set_bound :: s1.m_trail,
                  m_rows := (vw.1, sz) :: s1.m_rows })

/-- linear_solver.cpp, new_le: internalize both operands and record the
structural mapping. -/
def new_le (c : UleC) (s : LState) : Except LinError LState :=
  match internalize_pdd c.lhs s with
  | .error e => .error e
  | .ok (v, s1) =>
    match internalize_pdd c.rhs s1 with
    | .error e => .error e
    | .ok (w, s2) =>
      .ok { s2 with
        m_bool_var2row := Function.update s2.m_bool_var2row c.bvar (some (v, w)) }

/-- Push a bound-setting trail entry together with the mutated engine, as
the bound branches of assert_le/assert_eq/set_value/set_bound do. -/
def pushBound (v sz : Nat) (fp : Fixplex) (s : LState) : LState :=
  { (putFix sz fp s) with m_trail := .set_bound :: s.m_trail,
                          m_rows := (v, sz) :: s.m_rows }

/-- linear_solver.cpp, assert_le: constant right-hand side degenerates to an
upper bound (positive) or a lower bound at constant + 1 (negative; the
local is_max_value flag is initialized to false and never updated in the
source, so its conflict-not-implemented branch is dead and a maximal
constant silently yields the out-of-range lower bound 2^sz); a constant
left-hand side is symmetric, with a live conflict-not-implemented throw
for the negative zero case; otherwise a directed edge is added. -/
def assert_le (c : UleC) (s : LState) : Except LinError LState :=
  match s.m_bool_var2row c.bvar with
  | none => .error .usage
  | some vw =>
    let sz := c.lhs.width
    match sz2fixplex sz s with
    | .error e => .error e
    | .ok (fp, s1) =>
      if c.rhs.is_val then
        let is_max_value := false
        if c.pos then .ok (pushBound vw.1 sz (fp.set_bounds vw.1 0 c.rhs.val) s1)
        else if is_max_value then .error .conflictNotImplemented
        else .ok (pushBound vw.1 sz (fp.set_bounds vw.1 (c.rhs.val + 1) 0) s1)
      else if c.lhs.is_val then
        if c.pos then .ok (pushBound vw.2 sz (fp.set_bounds vw.2 c.lhs.val 0) s1)
        else if c.lhs.val = 0 then .error .conflictNotImplemented
        else .ok (pushBound vw.2 sz (fp.set_bounds vw.2 0 (c.lhs.val - 1)) s1)
      else
        .ok { (putFix sz (if c.pos then fp.add_le vw.1 vw.2 else fp.add_lt vw.2 vw.1) s1)
              with m_trail := .add_ineq :: s1.m_trail,
                   m_rows := (vw.1, sz) :: s1.m_rows }

/-- linear_solver.cpp, set_value(pvar, value): direct bound injection on the
aliased internal variable.  The width of a problem variable is supplied by
the surrounding solver (s.size(v)), abstracted as szOf. -/
def lin_set_value (szOf : Nat → Nat) (v value : Nat) (s : LState) :
    Except LinError LState :=
  match sz2fixplex (szOf v) s with
  | .error e => .error e
  | .ok (fp, s1) =>
    let r := pvar2var (szOf v) v s1
    .ok (pushBound r.1 (szOf v) (fp.set_value r.1 value) r.2)

/-- linear_solver.cpp, set_bound(pvar, lo, hi): direct bound injection on
the aliased internal variable. -/
def lin_set_bound (szOf : Nat → Nat) (v lo hi : Nat) (s : LState) :
    Except LinError LState :=
  match sz2fixplex (szOf v) s with
  | .error e => .error e
  | .ok (fp, s1) =>
    let r := pvar2var (szOf v) v s1
    .ok (pushBound r.1 (szOf v) (fp.set_bounds r.1 lo hi) r.2)

/-- The three-valued feasibility verdict. -/
inductive Lbool
  | lTrue
  | lFalse
  | lUndef
deriving DecidableEq

/-- linear_solver.cpp, check(): iterate the engine table in index (width)
order, skipping unallocated slots; return infeasible at the first engine
reporting infeasible, remember unknown, else feasible.  The verdict of the
external make_feasible call is supplied by the oracle mf. -/
def checkAux (mf : Fixplex → Lbool) : List (Option Fixplex) → Lbool → Lbool
  | [], res => res
  | none :: rest, res => checkAux mf rest res
  | some f :: rest, res =>
    match mf f with
    | .lFalse => .lFalse
    | .lUndef => checkAux mf rest .lUndef
    | .lTrue => checkAux mf rest res

/-- linear_solver.cpp, check(). -/
def lin_check (mf : Fixplex → Lbool) (s : LState) : Lbool :=
  checkAux mf s.m_fix .lTrue

/-- The widths whose engines check() polls (calls make_feasible on), in
order, up to and including the first engine reporting infeasible. -/
def checkTraceAux (mf : Fixplex → Lbool) : List (Option Fixplex) → Nat → List Nat
  | [], _ => []
  | none :: rest, i => checkTraceAux mf rest (i + 1)
  | some f :: rest, i =>
    if mf f = .lFalse then [i] else i :: checkTraceAux mf rest (i + 1)

/-- The observable polling sequence of check(). -/
def checkTrace (mf : Fixplex → Lbool) (s : LState) : List Nat :=
  checkTraceAux mf s.m_fix 0

/-- The polling sequence the creation-order reading of the claim predicts:
engines visited in allocation order, stopping at the first infeasible
one. -/
def pollInOrder (mf : Fixplex → Lbool) (s : LState) : List Nat → List Nat
  | [] => []
  | sz :: rest =>
    match getFix s sz with
    | none => pollInOrder mf s rest
    | some f => if mf f = .lFalse then [sz] else sz :: pollInOrder mf s rest

/-- linear_solver.cpp, push(): a level marker. -/
def lin_push (s : LState) : LState := { s with m_trail := .inc_level :: s.m_trail }

/-- Totalized engine read used by the undo dispatch: pop is only invoked on
trails whose set_bound/add_row/add_ineq entries had their engine created
by the forward operation, so sz2fixplex's allocation and error branches
are unreachable from pop in well-formed runs; the lookup defaults to an
empty engine. -/
def getFixD (s : LState) (sz : Nat) : Fixplex :=
  (getFix s sz).getD (emptyFixplex .u32)

/-- One undo step of linear_solver::pop, dispatching on a trail entry that
has already been removed from the trail: decrement the width's variable
counter, remove and unintern the last monomial, or route
restore_bound/del_row/restore_ineq to the width's engine, popping the
matching m_rows entry. -/
def undoEntry (e : TrailI) (s : LState) : LState :=
  match e with
  | .inc_level => s
  | .add_var =>
    match s.m_rows with
    | [] => s
    | (_, sz) :: rest =>
      { s with m_rows := rest,
               m_sz2num_vars :=
                 Function.update s.m_sz2num_vars sz (s.m_sz2num_vars sz - 1) }
  | .add_mono =>
    match s.m_monomials with
    | [] => s
    | m :: rest =>
      { s with m_monomials := rest, m_mono2var := eraseMono m.sz m.vars s.m_mono2var }
  | .set_bound =>
    match s.m_rows with
    | [] => s
    | (_, sz) :: rest =>
      { (putFix sz (getFixD s sz).restore_bound s) with m_rows := rest }
  | .add_row =>
    match s.m_rows with
    | [] => s
    | (v, sz) :: rest =>
      { (putFix sz ((getFixD s sz).del_row v) s) with m_rows := rest }
  | .add_ineq =>
    match s.m_rows with
    | [] => s
    | (_, sz) :: rest =>
      { (putFix sz (getFixD s sz).restore_ineq s) with m_rows := rest }

/-- linear_solver.cpp, pop(n): undo trail entries in exact reverse order
until n level markers have been consumed.  The explicit fuel bounds the
recursion by the trail length, which the loop never exceeds (each
iteration removes one trail entry). -/
def popFuel : Nat → Nat → LState → LState
  | 0, _, s => s
  | _ + 1, 0, s => s
  | fuel + 1, n + 1, s =>
    match s.m_trail with
    | [] => s
    | .inc_level :: rest => popFuel fuel n { s with m_trail := rest }
    | .add_var :: rest => popFuel fuel (n + 1) (undoEntry .add_var { s with m_trail := rest })
    | .add_mono :: rest => popFuel fuel (n + 1) (undoEntry .add_mono { s with m_trail := rest })
    | .set_bound :: rest =>
      popFuel fuel (n + 1) (undoEntry .set_bound { s with m_trail := rest })
    | .add_row :: rest => popFuel fuel (n + 1) (undoEntry .add_row { s with m_trail := rest })
    | .add_ineq :: rest => popFuel fuel (n + 1) (undoEntry .add_ineq { s with m_trail := rest })

/-- linear_solver.cpp, pop(n). -/
def lin_pop (n : Nat) (s : LState) : LState := popFuel s.m_trail.length n s

/-- The combined state of the linear solver and the viable tracker. -/
structure CState where
  lin : LState
  vib : VState

/-- The operations of the exposed interface (spec section 6) as invoked by
the surrounding solver: trail bracket control, constraint registration and
activation, direct bound injection, and the viable-domain mutators. -/
inductive Op
  | push
  | newEq (c : EqC)
  | assertEq (c : EqC)
  | newLe (c : UleC)
  | assertLe (c : UleC)
  | setValue (v value : Nat)
  | setBound (v lo hi : Nat)
  | vIntersectEq (a v b : Nat) (pos : Bool)
  | vIntersectUle (v a b c d : Nat) (pos : Bool)
  | vAddNonViable (v value : Nat)

/-- One interface operation on the combined state. -/
def runOp (szOf : Nat → Nat) : Op → CState → Except LinError CState
  | .push, cs => .ok { cs with lin := lin_push cs.lin }
  | .newEq c, cs => (new_eq c cs.lin).map (fun l => { cs with lin := l })
  | .assertEq c, cs => (assert_eq c cs.lin).map (fun l => { cs with lin := l })
  | .newLe c, cs => (new_le c cs.lin).map (fun l => { cs with lin := l })
  | .assertLe c, cs => (assert_le c cs.lin).map (fun l => { cs with lin := l })
  | .setValue v value, cs =>
    (lin_set_value szOf v value cs.lin).map (fun l => { cs with lin := l })
  | .setBound v lo hi, cs =>
    (lin_set_bound szOf v lo hi cs.lin).map (fun l => { cs with lin := l })
  | .vIntersectEq a v b pos, cs =>
    .ok { cs with vib := (viable_intersect_eq a v b pos cs.vib).1 }
  | .vIntersectUle v a b c d pos, cs =>
    .ok { cs with vib := (viable_intersect_ule v a b c d pos cs.vib).1 }
  | .vAddNonViable v value, cs =>
    .ok { cs with vib := (viable_add_non_viable v value cs.vib).1 }

/-- A sequence of interface operations. -/
def runOps (szOf : Nat → Nat) : List Op → CState → Except LinError CState
  | [], cs => .ok cs
  | op :: rest, cs =>
    match runOp szOf op cs with
    | .error e => .error e
    | .ok cs1 => runOps szOf rest cs1

/-- The number of push operations in a sequence. -/
def pushCount : List Op → Nat
  | [] => 0
  | .push :: rest => pushCount rest + 1
  | _ :: rest => pushCount rest

/-- The initial combined state: empty linear solver, every problem
variable's domain free at its width. -/
def initC (szOf : Nat → Nat) : CState :=
  ⟨⟨[], [], fun _ => 0, [], [], [], fun _ => none, []⟩,
   ⟨fun v => ⟨szOf v, false, 0, 0⟩, []⟩⟩

/-- Content equality of engines: rows, bound history, inequality edges and
bounds (pointwise) agree.  The kind tag is not content. -/
def FixEq (a b : Fixplex) : Prop :=
  a.rows = b.rows ∧ a.bhist = b.bhist ∧ a.ineqs = b.ineqs ∧ ∀ x, a.bounds x = b.bounds x

/-- Equality of all pop-restored linear-solver state: trail, undo rows,
per-width variable counters, interning table, monomial list, and per-width
engine content.  m_bool_var2row (set at registration and deliberately not
restored by pop), the mere allocation of an engine slot (engines are never
deallocated on pop, an absent slot equals an empty engine) and the ghost
creation order are not part of it. -/
def LEq (s t : LState) : Prop :=
  s.m_trail = t.m_trail ∧ s.m_rows = t.m_rows ∧
  (∀ z, s.m_sz2num_vars z = t.m_sz2num_vars z) ∧
  s.m_mono2var = t.m_mono2var ∧ s.m_monomials = t.m_monomials ∧
  (∀ sz, FixEq (getFixD s sz) (getFixD t sz))

/-- Equality of the viable tracker's restored state: all domains and the
viable trail. -/
def VEq (s t : VState) : Prop :=
  (∀ v, s.m_viable v = t.m_viable v) ∧ s.m_viable_trail = t.m_viable_trail

/-- The engine instantiation that belongs to a width. -/
def EngineKindFor (w : Nat) (k : EngineKind) : Prop :=
  (w = 32 ∧ k = .u32) ∨ (w = 64 ∧ k = .u64) ∨ (w = 256 ∧ k = .u256)

/-- Invariant: every allocated engine carries the instantiation of its own
width — no engine of a different width is ever silently substituted. -/
def KindInv (s : LState) : Prop :=
  ∀ w fp, getFix s w = some fp → EngineKindFor w fp.kind

/-- The widths holding an allocated engine, in ascending (index) order. -/
def allocWidths (s : LState) : List Nat :=
  (List.range s.m_fix.length).filter (fun i => (getFix s i).isSome)

/-- Preservation of interning-table entries: every (width, variable-sequence)
key findable in s stays findable, bound to the same entry, in t. -/
def MonoPres (s t : LState) : Prop :=
  ∀ sz vars m, findMono sz vars s.m_mono2var = some m →
    findMono sz vars t.m_mono2var = some m

/-! ## Interval lemmas -/

namespace ViableSet

theorem contains_iff (s : ViableSet) (n : Nat) :
    s.contains n = true ↔
      (s.emp = false ∧ (s.lo = s.hi ∨ (s.lo < s.hi ∧ s.lo ≤ n ∧ n < s.hi) ∨
        (s.hi < s.lo ∧ (s.lo ≤ n ∨ n < s.hi)))) := by
  unfold contains
  split_ifs <;> simp_all <;> omega

theorem contains_of_emp (s : ViableSet) (h : s.emp = true) (n : Nat) :
    s.contains n = false := by
  simp [ViableSet.contains, h]

theorem set_lo_sound (s : ViableSet) (b x : Nat) (hwf : VSwf s)
    (hc : s.contains x = true) (hbx : b ≤ x) : (s.set_lo b).contains x = true := by
  rw [contains_iff] at hc
  rcases hwf with he | ⟨h1, h2, h3⟩
  · exact absurd hc.1 (by simp [he])
  · unfold set_lo set_empty is_free
    split_ifs <;> rw [contains_iff] <;> simp_all <;> omega

theorem set_hi_sound (s : ViableSet) (d x : Nat) (hwf : VSwf s)
    (hc : s.contains x = true) (hxd : x ≤ d) : (s.set_hi d).contains x = true := by
  rw [contains_iff] at hc
  rcases hwf with he | ⟨h1, h2, h3⟩
  · exact absurd hc.1 (by simp [he])
  · unfold set_hi set_empty is_free is_max
    split_ifs <;> rw [contains_iff] <;> simp_all <;> omega

set_option maxHeartbeats 1000000 in
theorem intersect_eq1_pos_exact (s : ViableSet) (a x : Nat)
    (ha : a < 2 ^ s.numBits) (hx : x < 2 ^ s.numBits) :
    (s.intersect_eq1 a true).contains x = true ↔ (s.contains x = true ∧ x = a) := by
  obtain ⟨w, e, lo, hi⟩ := s
  simp only at ha hx
  cases e
  · unfold intersect_eq1 set_empty is_empty is_max
    split_ifs <;> simp_all [contains_iff] <;> omega
  · simp [intersect_eq1, is_empty, contains]

set_option maxHeartbeats 1000000 in
theorem intersect_eq1_neg_sound (s : ViableSet) (a x : Nat)
    (hx : x < 2 ^ s.numBits)
    (hc : s.contains x = true) (hxa : x ≠ a) :
    (s.intersect_eq1 a false).contains x = true := by
  obtain ⟨w, e, lo, hi⟩ := s
  simp only at hx
  cases e
  · rw [contains_iff] at hc
    unfold intersect_eq1 set_empty is_empty is_max
    split_ifs <;> simp_all [contains_iff] <;> omega
  · simp [contains] at hc

set_option maxHeartbeats 1600000 in
theorem intersect_eq1_neg_exact (s : ViableSet) (a x : Nat) (hwf : VSwf s)
    (ha : a < 2 ^ s.numBits) (hx : x < 2 ^ s.numBits)
    (hb : s.contains a = false ∨ a = s.lo ∨ a + 1 = s.hi ∨
          (s.hi = 0 ∧ s.is_max a = true)) :
    (s.intersect_eq1 a false).contains x = true ↔ (s.contains x = true ∧ x ≠ a) := by
  obtain ⟨w, e, lo, hi⟩ := s
  simp only at ha hx
  cases e
  · rcases hwf with he | ⟨h1, h2, h3⟩
    · simp at he
    · simp only at h1 h2 h3
      simp only [contains_iff, is_max, beq_iff_eq] at hb
      unfold intersect_eq1 set_empty is_empty is_max
      split_ifs <;> simp_all [contains_iff] <;> omega
  · simp [intersect_eq1, is_empty, contains]

theorem set_lo_wf (s : ViableSet) (b : Nat) (hwf : VSwf s)
    (hb : b < 2 ^ s.numBits) : VSwf (s.set_lo b) := by
  unfold set_lo set_empty is_free
  split_ifs <;> rcases hwf with he | ⟨h1, h2, h3⟩ <;> simp_all [VSwf] <;> omega

theorem set_hi_wf (s : ViableSet) (d : Nat) (hwf : VSwf s)
    (hd : d < 2 ^ s.numBits) : VSwf (s.set_hi d) := by
  unfold set_hi set_empty is_free is_max
  split_ifs <;> rcases hwf with he | ⟨h1, h2, h3⟩ <;> simp_all [VSwf] <;> omega

theorem set_empty_wf (s : ViableSet) : VSwf s.set_empty := by
  simp [VSwf, set_empty]

set_option maxHeartbeats 1000000 in
theorem intersect_eq1_wf (s : ViableSet) (a : Nat) (pos : Bool) (hwf : VSwf s)
    (ha : a < 2 ^ s.numBits) : VSwf (s.intersect_eq1 a pos) := by
  unfold intersect_eq1 set_empty is_empty is_max
  split_ifs <;> rcases hwf with he | ⟨h1, h2, h3⟩ <;>
    simp_all [VSwf, contains_iff] <;> omega

theorem narrowLo_step_contains (s : ViableSet) (x : Nat) (hwf : VSwf s)
    (hc : s.contains x = true) (hne : x ≠ s.lo) :
    (ViableSet.set_lo { s with lo := s.lo + 1 } (s.lo + 1)).contains x = true := by
  rw [contains_iff] at hc
  rcases hwf with he | ⟨h1, h2, h3⟩
  · exact absurd hc.1 (by simp [he])
  · unfold set_lo set_empty is_free
    split_ifs <;> rw [contains_iff] <;> simp_all <;> omega

theorem narrowLo_step_wf (s : ViableSet) (hwf : VSwf s)
    (hmax : s.is_max s.lo = false) :
    VSwf (ViableSet.set_lo { s with lo := s.lo + 1 } (s.lo + 1)) := by
  simp only [is_max, beq_eq_false_iff_ne, ne_eq] at hmax
  unfold set_lo set_empty is_free
  split_ifs <;> rcases hwf with he | ⟨h1, h2, h3⟩ <;> simp_all [VSwf] <;> omega

theorem narrowLo_wf (ev : Nat → Bool) (bud : Nat) (s : ViableSet)
    (hwf : VSwf s) : VSwf (narrowLo ev bud s).1 := by
  induction bud generalizing s with
  | zero => simpa [narrowLo] using hwf
  | succ n ih =>
    unfold narrowLo
    split_ifs with h
    · exact ih _ (narrowLo_step_wf s hwf h.2.1)
    · exact hwf

theorem narrowLo_post (ev : Nat → Bool) (bud : Nat) (s : ViableSet) :
    (narrowLo ev bud s).2 = 0 ∨ ev (narrowLo ev bud s).1.lo = true ∨
      (narrowLo ev bud s).1.is_max (narrowLo ev bud s).1.lo = true ∨
      (narrowLo ev bud s).1.is_empty = true := by
  induction bud generalizing s with
  | zero => simp [narrowLo]
  | succ n ih =>
    unfold narrowLo
    split_ifs with h
    · exact ih _
    · cases hev : ev s.lo with
      | true => exact Or.inr (Or.inl rfl)
      | false =>
        cases hm : s.is_max s.lo with
        | true => exact Or.inr (Or.inr (Or.inl rfl))
        | false =>
          cases hemp : s.is_empty with
          | true => exact Or.inr (Or.inr (Or.inr rfl))
          | false => exact absurd ⟨hev, hm, hemp⟩ h

theorem narrowLo_sound (ev : Nat → Bool) (bud : Nat) (s : ViableSet) (x : Nat)
    (hwf : VSwf s) (hev : ev x = true) (hc : s.contains x = true) :
    (narrowLo ev bud s).1.contains x = true := by
  induction bud generalizing s with
  | zero => simpa [narrowLo] using hc
  | succ n ih =>
    unfold narrowLo
    split_ifs with h
    · refine ih _ (narrowLo_step_wf s hwf h.2.1) ?_
      refine narrowLo_step_contains s x hwf hc ?_
      intro hx
      rw [hx] at hev
      rw [hev] at h
      exact absurd h.1 (by simp)
    · exact hc

theorem narrowHi_fix (ev : Nat → Bool) (bud : Nat) (s : ViableSet)
    (hwf : VSwf s)
    (hstop : ev s.lo = true ∨ s.is_max s.lo = true ∨ s.is_empty = true) :
    (narrowHi ev bud s).1 = s := by
  induction bud generalizing s with
  | zero => simp [narrowHi]
  | succ n ih =>
    unfold narrowHi
    split_ifs with h
    · obtain ⟨hh0, hevhi, hemp⟩ := h
      have hemp' : s.emp = false := by simpa [is_empty] using hemp
      have hwf' := hwf
      rcases hwf with he | hn
      · rw [he] at hemp'
        exact absurd hemp' (by simp)
      · have hlohi : s.lo < s.hi := by
          rcases hn.2.2 with h4 | h4 <;> omega
        have hevlo : ev s.lo = true := by
          rcases hstop with h4 | h4 | h4
          · exact h4
          · exfalso
            simp only [is_max, beq_iff_eq] at h4
            have := hn.2.1
            omega
          · rw [is_empty, hemp'] at h4
            exact absurd h4 (by simp)
        have hne : s.lo ≠ s.hi - 1 := by
          intro hx
          rw [← hx, hevlo] at hevhi
          exact absurd hevhi (by simp)
        have hlt : s.lo < s.hi - 1 := by omega
        have hstep : ViableSet.set_hi { s with hi := s.hi - 1 } (s.hi - 1) = s := by
          have h1 := hn.1
          have h2 := hn.2.1
          obtain ⟨w, e, lo, hi⟩ := s
          simp only at hemp' hlt h1 h2 ⊢
          unfold set_hi set_empty is_free is_max
          split_ifs <;> simp_all [ViableSet.mk.injEq] <;> omega
        rw [hstep]
        exact ih s hwf' hstop
    · rfl

theorem narrow_eq_narrowLo (ev : Nat → Bool) (bud : Nat) (s : ViableSet)
    (hwf : VSwf s) : (narrow ev bud s).1 = (narrowLo ev bud s).1 := by
  unfold narrow
  rcases narrowLo_post ev bud s with h | h
  · rw [h]
    rfl
  · exact narrowHi_fix ev _ _ (narrowLo_wf ev bud s hwf) h

theorem narrow_sound (ev : Nat → Bool) (bud : Nat) (s : ViableSet) (x : Nat)
    (hwf : VSwf s) (hev : ev x = true) (hc : s.contains x = true) :
    (narrow ev bud s).1.contains x = true := by
  rw [narrow_eq_narrowLo ev bud s hwf]
  exact narrowLo_sound ev bud s x hwf hev hc

theorem narrow_wf (ev : Nat → Bool) (bud : Nat) (s : ViableSet)
    (hwf : VSwf s) : VSwf (narrow ev bud s).1 := by
  rw [narrow_eq_narrowLo ev bud s hwf]
  exact narrowLo_wf ev bud s hwf

theorem set_empty_numBits (s : ViableSet) : s.set_empty.numBits = s.numBits := rfl

theorem set_lo_numBits (s : ViableSet) (b : Nat) :
    (s.set_lo b).numBits = s.numBits := by
  unfold set_lo set_empty
  split_ifs <;> rfl

theorem set_hi_numBits (s : ViableSet) (d : Nat) :
    (s.set_hi d).numBits = s.numBits := by
  unfold set_hi set_empty
  split_ifs <;> rfl

theorem intersect_eq1_numBits (s : ViableSet) (a : Nat) (pos : Bool) :
    (s.intersect_eq1 a pos).numBits = s.numBits := by
  unfold intersect_eq1 set_empty
  split_ifs <;> rfl

theorem narrowLo_numBits (ev : Nat → Bool) (bud : Nat) (s : ViableSet) :
    (narrowLo ev bud s).1.numBits = s.numBits := by
  induction bud generalizing s with
  | zero => rfl
  | succ n ih =>
    unfold narrowLo
    split_ifs with h
    · rw [ih]
      exact set_lo_numBits _ _
    · rfl

theorem narrowHi_numBits (ev : Nat → Bool) (bud : Nat) (s : ViableSet) :
    (narrowHi ev bud s).1.numBits = s.numBits := by
  induction bud generalizing s with
  | zero => rfl
  | succ n ih =>
    unfold narrowHi
    split_ifs with h
    · rw [ih]
      exact set_hi_numBits _ _
    · rfl

theorem narrow_numBits (ev : Nat → Bool) (bud : Nat) (s : ViableSet) :
    (narrow ev bud s).1.numBits = s.numBits := by
  unfold narrow
  rw [narrowHi_numBits, narrowLo_numBits]

theorem contains_lo_le (s : ViableSet) (x : Nat) (hwf : VSwf s)
    (hc : s.contains x = true) : s.lo ≤ x := by
  rw [contains_iff] at hc
  rcases hwf with he | ⟨h1, h2, h3⟩
  · exact absurd hc.1 (by simp [he])
  · omega

end ViableSet

theorem coprime_two_pow (a w : Nat) (ha : a % 2 = 1) : Nat.Coprime a (2 ^ w) := by
  have hp : Nat.Coprime a 2 := (Nat.coprime_two_right).mpr (Nat.odd_iff.mpr ha)
  exact hp.pow_right w

theorem solOf_lt (a b w : Nat) : solOf a b w < 2 ^ w := by
  have hpos : (0 : Int) < ((2 ^ w : Nat) : Int) := by positivity
  have := Int.emod_lt_of_pos ((mult_inverse a w : Int) * (-(b : Int))) hpos
  have hnn := Int.emod_nonneg ((mult_inverse a w : Int) * (-(b : Int))) (by positivity)
  unfold solOf
  omega

theorem solOf_zero (a w : Nat) : solOf a 0 w = 0 := by
  simp [solOf]

theorem invSearch_finds (a n fuel : Nat)
    (h : ∃ k, k < fuel ∧ (a * k) % n = 1 % n) :
    (a * invSearch a n fuel) % n = 1 % n := by
  induction fuel with
  | zero =>
    obtain ⟨k, hk, _⟩ := h
    omega
  | succ m ih =>
    unfold invSearch
    split_ifs with hp
    · exact hp
    · apply ih
      obtain ⟨k, hk, hkp⟩ := h
      refine ⟨k, ?_, hkp⟩
      rcases Nat.lt_succ_iff_lt_or_eq.mp hk with h1 | h1
      · exact h1
      · subst h1
        exact absurd hkp hp

theorem exists_mod_inverse (a w : Nat) (ha : a % 2 = 1) :
    ∃ k, k < 2 ^ w ∧ (a * k) % 2 ^ w = 1 % 2 ^ w := by
  have hcop := coprime_two_pow a w ha
  have hg : Int.gcd (a : Int) ((2 ^ w : Nat) : Int) = 1 := by
    rwa [Int.gcd_natCast_natCast]
  have hbez := Int.gcd_eq_gcd_ab (a : Int) ((2 ^ w : Nat) : Int)
  rw [hg] at hbez
  have hpos : (0 : Int) < ((2 ^ w : Nat) : Int) := by positivity
  refine ⟨(Int.gcdA (a : Int) ((2 ^ w : Nat) : Int) % ((2 ^ w : Nat) : Int)).toNat,
    ?_, ?_⟩
  · have hlt := Int.emod_lt_of_pos (Int.gcdA (a : Int) ((2 ^ w : Nat) : Int)) hpos
    have hnn := Int.emod_nonneg (Int.gcdA (a : Int) ((2 ^ w : Nat) : Int))
      (by positivity)
    omega
  · have hcastv : (((Int.gcdA (a : Int) ((2 ^ w : Nat) : Int) % ((2 ^ w : Nat) : Int)).toNat :
        Nat) : Int) = Int.gcdA (a : Int) ((2 ^ w : Nat) : Int) % ((2 ^ w : Nat) : Int) :=
      Int.toNat_of_nonneg (Int.emod_nonneg _ (by positivity))
    have hgoal : ((a : Int) * (Int.gcdA (a : Int) ((2 ^ w : Nat) : Int) %
        ((2 ^ w : Nat) : Int))) % ((2 ^ w : Nat) : Int) = 1 % ((2 ^ w : Nat) : Int) := by
      have hbez' : (1 : Int) = (a : Int) * (Int.gcdA (a : Int) ((2 ^ w : Nat) : Int)) +
          ((2 ^ w : Nat) : Int) * (Int.gcdB (a : Int) ((2 ^ w : Nat) : Int)) := by
        exact_mod_cast hbez
      conv_rhs => rw [hbez']
      rw [Int.mul_emod, Int.emod_emod_of_dvd _ dvd_rfl, ← Int.mul_emod]
      rw [Int.add_mul_emod_self_left]
    rw [← hcastv] at hgoal
    exact_mod_cast hgoal

theorem mult_inverse_spec (a w : Nat) (ha : a % 2 = 1) :
    ((a : Int) * (mult_inverse a w : Int)) % ((2 ^ w : Nat) : Int) =
      1 % ((2 ^ w : Nat) : Int) := by
  have hnat : (a * mult_inverse a w) % 2 ^ w = 1 % 2 ^ w := by
    unfold mult_inverse
    exact invSearch_finds a (2 ^ w) (2 ^ w) (exists_mod_inverse a w ha)
  exact_mod_cast hnat

theorem eqSat_iff_sol (a b w x : Nat) (ha : a % 2 = 1) (hx : x < 2 ^ w) :
    ((a * x + b) % 2 ^ w = 0 ↔ x = solOf a b w) := by
  have hpos : (0 : Int) < ((2 ^ w : Nat) : Int) := by positivity
  have hne : ((2 ^ w : Nat) : Int) ≠ 0 := by positivity
  have hinv : Int.ModEq ((2 ^ w : Nat) : Int) ((a : Int) * (mult_inverse a w : Int)) 1 :=
    mult_inverse_spec a w ha
  have hsol : ((solOf a b w : Nat) : Int) =
      ((mult_inverse a w : Int) * (-(b : Int))) % ((2 ^ w : Nat) : Int) := by
    unfold solOf
    rw [Int.toNat_of_nonneg (Int.emod_nonneg _ hne)]
  have hsolmod : Int.ModEq ((2 ^ w : Nat) : Int) ((solOf a b w : Nat) : Int)
      ((mult_inverse a w : Int) * (-(b : Int))) := by
    rw [hsol]
    exact Int.emod_emod_of_dvd _ dvd_rfl
  have hsollt : solOf a b w < 2 ^ w := solOf_lt a b w
  constructor
  · intro h
    have h' : ((a : Int) * (x : Int) + (b : Int)) % ((2 ^ w : Nat) : Int) = 0 := by
      exact_mod_cast h
    have hdvd : Int.ModEq ((2 ^ w : Nat) : Int) ((a : Int) * (x : Int)) (-(b : Int)) := by
      have hd : ((2 ^ w : Nat) : Int) ∣ ((a : Int) * (x : Int) + (b : Int)) :=
        Int.dvd_of_emod_eq_zero h'
      rcases hd with ⟨k, hk⟩
      refine Int.ModEq.symm (Int.modEq_iff_dvd.mpr ?_)
      exact ⟨k, by linarith⟩
    have hchain : Int.ModEq ((2 ^ w : Nat) : Int) (x : Int) ((solOf a b w : Nat) : Int) := by
      calc (x : Int) = 1 * (x : Int) := by ring
        _ ≡ ((a : Int) * (mult_inverse a w : Int)) * (x : Int)
            [ZMOD ((2 ^ w : Nat) : Int)] := (hinv.mul_right _).symm
        _ = (mult_inverse a w : Int) * ((a : Int) * (x : Int)) := by ring
        _ ≡ (mult_inverse a w : Int) * (-(b : Int)) [ZMOD ((2 ^ w : Nat) : Int)] :=
            hdvd.mul_left _
        _ ≡ ((solOf a b w : Nat) : Int) [ZMOD ((2 ^ w : Nat) : Int)] := hsolmod.symm
    have hxmod : (x : Int) % ((2 ^ w : Nat) : Int) = (x : Int) :=
      Int.emod_eq_of_lt (by positivity) (by exact_mod_cast hx)
    have hsmod : ((solOf a b w : Nat) : Int) % ((2 ^ w : Nat) : Int) =
        ((solOf a b w : Nat) : Int) :=
      Int.emod_eq_of_lt (by positivity) (by exact_mod_cast hsollt)
    have hfin : (x : Int) = ((solOf a b w : Nat) : Int) := by
      have hch := hchain
      unfold Int.ModEq at hch
      rw [hxmod, hsmod] at hch
      exact hch
    exact_mod_cast hfin
  · intro h
    subst h
    have hfin : Int.ModEq ((2 ^ w : Nat) : Int)
        ((a : Int) * ((solOf a b w : Nat) : Int) + (b : Int)) 0 := by
      calc (a : Int) * ((solOf a b w : Nat) : Int) + (b : Int)
          ≡ (a : Int) * ((mult_inverse a w : Int) * (-(b : Int))) + (b : Int)
            [ZMOD ((2 ^ w : Nat) : Int)] := ((hsolmod.mul_left _).add_right _)
        _ = ((a : Int) * (mult_inverse a w : Int)) * (-(b : Int)) + (b : Int) := by ring
        _ ≡ 1 * (-(b : Int)) + (b : Int) [ZMOD ((2 ^ w : Nat) : Int)] :=
            ((hinv.mul_right _).add_right _)
        _ = 0 := by ring
    have hv : ((a : Int) * ((solOf a b w : Nat) : Int) + (b : Int)) %
        ((2 ^ w : Nat) : Int) = 0 := by
      unfold Int.ModEq at hfin
      simpa using hfin
    exact_mod_cast hv

theorem evalEqC_eq_true (a b w : Nat) (pos : Bool) (x : Nat) :
    evalEqC a b w pos x = true ↔ eqSat a b w pos x := by
  unfold evalEqC eqSat
  cases pos <;> simp

theorem evalUleC_eq_true (a b c d w : Nat) (pos : Bool) (x : Nat) :
    evalUleC a b c d w pos x = true ↔ uleSat a b c d w pos x := by
  unfold evalUleC uleSat
  cases pos <;> simp

theorem supAscend_all (p : Nat → Bool) (w fuel x : Nat) (hpx : p x = true) :
    ∀ y, x ≤ y → y ≤ supAscend p w fuel x → p y = true := by
  induction fuel generalizing x with
  | zero =>
    intro y h1 h2
    unfold supAscend at h2
    have : y = x := by omega
    rwa [this]
  | succ n ih =>
    intro y h1 h2
    unfold supAscend at h2
    split_ifs at h2 with h
    · rcases Nat.eq_or_lt_of_le h1 with he | hlt
      · rwa [← he]
      · exact ih (x + 1) h.2 y hlt h2
    · have : y = x := by omega
      rwa [this]

theorem eqNewDomain_sound (V : ViableSet) (a b x : Nat) (pos : Bool)
    (hwf : VSwf V) (hx : x < 2 ^ V.numBits)
    (hc : V.contains x = true) (hsat : eqSat a b V.numBits pos x) :
    (eqNewDomain V a b pos).contains x = true := by
  have hpw : 0 < 2 ^ V.numBits := Nat.pos_pow_of_pos _ (by norm_num)
  by_cases ha : a % 2 = 1
  · by_cases hb : b = 0
    · subst hb
      have hres : eqNewDomain V a 0 pos = V.intersect_eq1 0 pos := by
        simp [eqNewDomain, ViableSet.intersect_eq2, ha]
      rw [hres]
      cases pos with
      | true =>
        have h0 : (a * x + 0) % 2 ^ V.numBits = 0 := hsat.mp rfl
        have hx0 : x = 0 := by
          have := (eqSat_iff_sol a 0 V.numBits x ha hx).mp h0
          rwa [solOf_zero] at this
        exact (ViableSet.intersect_eq1_pos_exact V 0 x hpw hx).mpr ⟨hc, hx0⟩
      | false =>
        have hx0 : x ≠ 0 := by
          intro hx0
          have : (a * x + 0) % 2 ^ V.numBits = 0 := by
            rw [(eqSat_iff_sol a 0 V.numBits x ha hx), hx0, solOf_zero]
          exact absurd (hsat.mpr this) (by simp)
        exact ViableSet.intersect_eq1_neg_sound V 0 x hx hc hx0
    · have hres : eqNewDomain V a b pos = V.intersect_eq1 (solOf a b V.numBits) pos := by
        simp [eqNewDomain, ViableSet.intersect_eq2, ha, hb]
      rw [hres]
      cases pos with
      | true =>
        have h0 : (a * x + b) % 2 ^ V.numBits = 0 := hsat.mp rfl
        have hxs : x = solOf a b V.numBits := (eqSat_iff_sol a b V.numBits x ha hx).mp h0
        exact (ViableSet.intersect_eq1_pos_exact V _ x (solOf_lt a b V.numBits) hx).mpr
          ⟨hc, hxs⟩
      | false =>
        have hxs : x ≠ solOf a b V.numBits := by
          intro hx0
          have : (a * x + b) % 2 ^ V.numBits = 0 :=
            (eqSat_iff_sol a b V.numBits x ha hx).mpr hx0
          exact absurd (hsat.mpr this) (by simp)
        exact ViableSet.intersect_eq1_neg_sound V _ x hx hc hxs
  · have hres : eqNewDomain V a b pos =
        (ViableSet.narrow (evalEqC a b V.numBits pos) 10 V).1 := by
      simp [eqNewDomain, ViableSet.intersect_eq2, ViableSet.intersect_eq_budget, ha]
    rw [hres]
    exact ViableSet.narrow_sound _ _ _ _ hwf ((evalEqC_eq_true _ _ _ _ _).mpr hsat) hc

theorem uleBddRefine_sound (V : ViableSet) (a b c d x : Nat) (pos : Bool)
    (hwf : VSwf V) (hx : x < 2 ^ V.numBits)
    (hc : V.contains x = true)
    (hsat : uleSat a b c d V.numBits pos x) :
    (uleBddRefine V a b c d pos).contains x = true := by
  have hgt : bddGt a b c d V.numBits pos x = false := by
    unfold bddGt
    rw [Bool.not_eq_false']
    exact (evalUleC_eq_true _ _ _ _ _ _ _).mpr hsat
  unfold uleBddRefine
  cases hsup : fddSup (bddGt a b c d V.numBits pos) V.numBits V.lo with
  | none => exact hc
  | some bnd =>
    have hrun : ∀ y, V.lo ≤ y → y ≤ bnd → bddGt a b c d V.numBits pos y = true := by
      unfold fddSup at hsup
      by_cases hplo : bddGt a b c d V.numBits pos V.lo = true
      · rw [if_pos hplo] at hsup
        injection hsup with hh
        subst hh
        exact supAscend_all _ _ _ _ hplo
      · rw [if_neg hplo] at hsup
        cases hsup
    have hlox : V.lo ≤ x := ViableSet.contains_lo_le V x hwf hc
    have hgtx : bnd < x := by
      by_contra hle
      push_neg at hle
      have := hrun x hlox hle
      rw [hgt] at this
      exact absurd this (by simp)
    have h1 : (V.set_lo bnd).contains x = true :=
      ViableSet.set_lo_sound V bnd x hwf hc (by omega)
    have h1wf : VSwf (V.set_lo bnd) := by
      rcases Nat.lt_or_ge bnd (2 ^ V.numBits) with hb | hb
      · exact ViableSet.set_lo_wf V bnd hwf hb
      · exfalso
        omega
    have hxnb : x < 2 ^ (V.set_lo bnd).numBits := by
      rwa [ViableSet.set_lo_numBits]
    exact ViableSet.intersect_eq1_neg_sound _ bnd x hxnb h1 (by omega)

theorem uleNewDomain_sound (V : ViableSet) (a b c d x : Nat) (pos : Bool)
    (hwf : VSwf V) (hx : x < 2 ^ V.numBits)
    (hb : b < 2 ^ V.numBits) (hd : d < 2 ^ V.numBits)
    (hc : V.contains x = true)
    (hsat : uleSat a b c d V.numBits pos x) :
    (uleNewDomain V a b c d pos).contains x = true := by
  have hpw : 0 < 2 ^ V.numBits := Nat.pos_pow_of_pos _ (by norm_num)
  have hxmod : x % 2 ^ V.numBits = x := Nat.mod_eq_of_lt hx
  by_cases h1 : a % 2 = 1 ∧ b = 0 ∧ c = 0 ∧ d = 0
  · obtain ⟨ha, hb0, hc0, hd0⟩ := h1
    subst hb0
    subst hc0
    subst hd0
    have hres : uleNewDomain V a 0 0 0 pos = V.intersect_eq1 0 pos := by
      simp [uleNewDomain, ViableSet.intersect_ule_fast, ha]
    rw [hres]
    have hsat' : eqSat a 0 V.numBits pos x := by
      unfold uleSat at hsat
      unfold eqSat
      simpa [Nat.le_zero] using hsat
    cases pos with
    | true =>
      have h0 : (a * x + 0) % 2 ^ V.numBits = 0 := hsat'.mp rfl
      have hx0 : x = 0 := by
        have := (eqSat_iff_sol a 0 V.numBits x ha hx).mp h0
        rwa [solOf_zero] at this
      exact (ViableSet.intersect_eq1_pos_exact V 0 x hpw hx).mpr ⟨hc, hx0⟩
    | false =>
      have hx0 : x ≠ 0 := by
        intro hx0
        have : (a * x + 0) % 2 ^ V.numBits = 0 := by
          rw [(eqSat_iff_sol a 0 V.numBits x ha hx), hx0, solOf_zero]
        exact absurd (hsat'.mpr this) (by simp)
      exact ViableSet.intersect_eq1_neg_sound V 0 x hx hc hx0
  · by_cases h2 : a = 1 ∧ b = 0 ∧ c = 0
    · obtain ⟨ha1, hb0, hc0⟩ := h2
      subst ha1
      subst hb0
      subst hc0
      have hsat' : pos = true ↔ x ≤ d % 2 ^ V.numBits := by
        unfold uleSat at hsat
        simpa [hxmod] using hsat
      have hdmod : d % 2 ^ V.numBits = d := Nat.mod_eq_of_lt hd
      rw [hdmod] at hsat'
      have hd0 : ¬ d = 0 := fun hz => h1 ⟨by norm_num, rfl, rfl, hz⟩
      cases pos with
      | true =>
        have hres : uleNewDomain V 1 0 0 d true = V.set_hi d := by
          simp [uleNewDomain, ViableSet.intersect_ule_fast, hd0]
        rw [hres]
        exact ViableSet.set_hi_sound V d x hwf hc (hsat'.mp rfl)
      | false =>
        have hxd : d < x := by
          rcases Nat.lt_or_ge d x with hlt | hge
          · exact hlt
          · exact absurd (hsat'.mpr hge) (by simp)
        by_cases hm : V.is_max d = true
        · exfalso
          simp only [ViableSet.is_max, beq_iff_eq] at hm
          omega
        · have hres : uleNewDomain V 1 0 0 d false = V.set_lo (d + 1) := by
            simp [uleNewDomain, ViableSet.intersect_ule_fast, hd0, hm]
          rw [hres]
          exact ViableSet.set_lo_sound V (d + 1) x hwf hc (by omega)
    · by_cases h3 : a = 0 ∧ c = 1 ∧ d = 0
      · obtain ⟨ha0, hc1, hd0⟩ := h3
        subst ha0
        subst hc1
        subst hd0
        have hsat' : pos = true ↔ b % 2 ^ V.numBits ≤ x := by
          unfold uleSat at hsat
          simpa [hxmod] using hsat
        have hbmod : b % 2 ^ V.numBits = b := Nat.mod_eq_of_lt hb
        rw [hbmod] at hsat'
        cases pos with
        | true =>
          have hres : uleNewDomain V 0 b 1 0 true = V.set_lo b := by
            simp [uleNewDomain, ViableSet.intersect_ule_fast, h1, h2]
          rw [hres]
          exact ViableSet.set_lo_sound V b x hwf hc (hsat'.mp rfl)
        | false =>
          have hxb : x < b := by
            rcases Nat.lt_or_ge x b with hlt | hge
            · exact hlt
            · exact absurd (hsat'.mpr hge) (by simp)
          have hbne : ¬ b = 0 := by omega
          have hres : uleNewDomain V 0 b 1 0 false = V.set_hi (b - 1) := by
            simp [uleNewDomain, ViableSet.intersect_ule_fast, h1, h2, hbne]
          rw [hres]
          exact ViableSet.set_hi_sound V (b - 1) x hwf hc (by omega)
      · have hff : V.intersect_ule_fast a b c d pos = (false, V) := by
          unfold ViableSet.intersect_ule_fast
          rw [if_neg h1, if_neg h2, if_neg h3]
        have hev : evalUleC a b c d V.numBits pos x = true :=
          (evalUleC_eq_true _ _ _ _ _ _ _).mpr hsat
        have hnsound : (ViableSet.narrow (evalUleC a b c d V.numBits pos) 10 V).1.contains
            x = true := ViableSet.narrow_sound _ _ _ _ hwf hev hc
        have hnwf : VSwf (ViableSet.narrow (evalUleC a b c d V.numBits pos) 10 V).1 :=
          ViableSet.narrow_wf _ _ _ hwf
        have hnb : (ViableSet.narrow (evalUleC a b c d V.numBits pos) 10 V).1.numBits =
            V.numBits := ViableSet.narrow_numBits _ _ _
        have hres : uleNewDomain V a b c d pos =
            (if (ViableSet.narrow (evalUleC a b c d V.numBits pos) 10 V).2 = 0 then
              uleBddRefine (ViableSet.narrow (evalUleC a b c d V.numBits pos) 10 V).1
                a b c d pos
            else (ViableSet.narrow (evalUleC a b c d V.numBits pos) 10 V).1) := by
          simp only [uleNewDomain, hff, ViableSet.intersect_ule_budget, Bool.false_eq_true,
            if_false]
        rw [hres]
        by_cases hbud : (ViableSet.narrow (evalUleC a b c d V.numBits pos) 10 V).2 = 0
        · rw [if_pos hbud]
          refine uleBddRefine_sound _ a b c d x pos hnwf ?_ hnsound ?_
          · rwa [hnb]
          · rwa [hnb]
        · rw [if_neg hbud]
          exact hnsound

theorem set_lo_shrink (s : ViableSet) (b x : Nat)
    (h : (s.set_lo b).contains x = true) : s.contains x = true := by
  obtain ⟨w, e, lo, hi⟩ := s
  cases e
  · unfold ViableSet.set_lo ViableSet.set_empty ViableSet.is_free at h
    split_ifs at h <;> simp_all [ViableSet.contains_iff] <;> omega
  · unfold ViableSet.set_lo ViableSet.set_empty ViableSet.is_free at h
    split_ifs at h <;> simp_all [ViableSet.contains_iff]

set_option maxHeartbeats 1000000 in
theorem set_ne_shrink (s : ViableSet) (a x : Nat)
    (h : (s.set_ne a).contains x = true) : s.contains x = true := by
  obtain ⟨w, e, lo, hi⟩ := s
  cases e
  · unfold ViableSet.set_ne ViableSet.intersect_eq1 ViableSet.set_empty
      ViableSet.is_empty ViableSet.is_max at h
    split_ifs at h <;> simp_all [ViableSet.contains_iff] <;> omega
  · unfold ViableSet.set_ne ViableSet.intersect_eq1 ViableSet.set_empty
      ViableSet.is_empty ViableSet.is_max at h
    split_ifs at h <;> simp_all [ViableSet.contains_iff]

/-! ## Claim theorems for the viable-domain tracker -/

/-- C10: whenever the O(1) closed-form fast path fails — the binary
viable_set::intersect_eq with an even coefficient a, or
viable_set::intersect_ule with coefficients matching none of the three
handled shapes — the function returns false and leaves the domain (lo, hi,
emptiness) completely unchanged, so the caller's subsequent bounded search
starts from the pre-call domain. -/
theorem fast_path_failure_leaves_domain_unchanged
    (s : ViableSet) (a b c d : Nat) (pos : Bool) :
    (a % 2 = 0 → s.intersect_eq2 a b pos = (false, s)) ∧
    (¬ (a % 2 = 1 ∧ b = 0 ∧ c = 0 ∧ d = 0) → ¬ (a = 1 ∧ b = 0 ∧ c = 0) →
      ¬ (a = 0 ∧ c = 1 ∧ d = 0) →
      s.intersect_ule_fast a b c d pos = (false, s)) := by
  constructor
  · intro ha
    unfold ViableSet.intersect_eq2
    rw [if_neg (by omega)]
  · intro h1 h2 h3
    unfold ViableSet.intersect_ule_fast
    rw [if_neg h1, if_neg h2, if_neg h3]

/-- Witness for C10 at concrete inputs. -/
theorem fast_path_failure_leaves_domain_unchanged_witness :
    (ViableSet.intersect_eq2 ⟨4, false, 0, 0⟩ 2 1 true = (false, ⟨4, false, 0, 0⟩)) ∧
    (ViableSet.intersect_ule_fast ⟨4, false, 0, 0⟩ 2 1 1 1 true =
      (false, ⟨4, false, 0, 0⟩)) := by
  have h := fast_path_failure_leaves_domain_unchanged ⟨4, false, 0, 0⟩ 2 1 1 1 true
  exact ⟨h.1 (by decide), h.2 (by decide) (by decide) (by decide)⟩

/-- C3: the monotonic-shrink invariant is violated by the code:
viable_set::set_hi raises the upper bound to d + 1 whenever hi is nonzero
and lo ≤ d, because its guard reads hi != 0 || d + 1 < hi (degenerating to
hi != 0) instead of restricting to the shrinking case.  On the interval
[0, 3) of width 4, set_hi(10) — reachable through the positive x ≤ 10
shape of viable_set::intersect_ule — enlarges the domain to [0, 11),
admitting the previously excluded value 5. -/
theorem set_hi_enlarges_domain :
    ViableSet.contains ⟨4, false, 0, 3⟩ 5 = false ∧
    ViableSet.set_hi ⟨4, false, 0, 3⟩ 10 = ⟨4, false, 0, 11⟩ ∧
    ViableSet.contains (ViableSet.set_hi ⟨4, false, 0, 3⟩ 10) 5 = true ∧
    ViableSet.intersect_ule_fast ⟨4, false, 0, 3⟩ 1 0 0 10 true =
      (true, ⟨4, false, 0, 11⟩) := by
  decide

/-- C2 counterexample: after viable::intersect_eq with a = 1, b = 3,
negative polarity on the free domain of width 2 (the disequality point
a⁻¹·(−b) = 1 is strictly interior, hitting the "unhandled diseq" branch),
the domain is left unchanged and still contains 1, although 1 violates the
asserted disequality 1·x + 3 ≠ 0 (mod 4); so not every remaining value
satisfies the constraint. -/
theorem intersect_eq_keeps_violating_value :
    (((viable_intersect_eq 1 0 3 false ⟨fun _ => ⟨2, false, 0, 0⟩, []⟩).1.m_viable 0).contains
      1 = true) ∧
    (((viable_intersect_eq 1 0 3 false ⟨fun _ => ⟨2, false, 0, 0⟩, []⟩).1.m_viable 0).is_empty
      = false) ∧
    (1 * 1 + 3) % 2 ^ 2 = 0 := by
  decide

/-- C2 (amended): narrowing is sound in the exclusion direction only: after
viable::intersect_eq or viable::intersect_ule, no value of the prior domain
that satisfies the asserted constraint for the given polarity has been
excluded; values violating the constraint may however remain (the bounded
search and the unhandled disequality branch are incomplete). -/
theorem narrowing_excludes_no_satisfying_value
    (st : VState) (v a b c d x : Nat) (pos : Bool)
    (hwf : VSwf (st.m_viable v))
    (hx : x < 2 ^ (st.m_viable v).numBits)
    (hb : b < 2 ^ (st.m_viable v).numBits)
    (hd : d < 2 ^ (st.m_viable v).numBits)
    (hc : (st.m_viable v).contains x = true) :
    (eqSat a b (st.m_viable v).numBits pos x →
      ((viable_intersect_eq a v b pos st).1.m_viable v).contains x = true) ∧
    (uleSat a b c d (st.m_viable v).numBits pos x →
      ((viable_intersect_ule v a b c d pos st).1.m_viable v).contains x = true) := by
  constructor
  · intro hsat
    show (Function.update st.m_viable v
      (eqNewDomain ((push_viable v st).m_viable v) a b pos) v).contains x = true
    rw [Function.update_same]
    exact eqNewDomain_sound _ a b x pos hwf hx hc hsat
  · intro hsat
    show (Function.update st.m_viable v
      (uleNewDomain ((push_viable v st).m_viable v) a b c d pos) v).contains x = true
    rw [Function.update_same]
    exact uleNewDomain_sound _ a b c d x pos hwf hx hb hd hc hsat

/-- Witness for C2 (amended) at width 3: x = 5 satisfies both
3x + 1 = 0 (mod 8) and 3x + 1 <= x + 2 (mod 8), and survives both
narrowings from the free domain. -/
theorem narrowing_excludes_no_satisfying_value_witness :
    (((viable_intersect_eq 3 0 1 true ⟨fun _ => ⟨3, false, 0, 0⟩, []⟩).1.m_viable 0).contains
      5 = true) ∧
    (((viable_intersect_ule 0 3 1 1 2 true ⟨fun _ => ⟨3, false, 0, 0⟩, []⟩).1.m_viable
      0).contains 5 = true) := by
  have h := narrowing_excludes_no_satisfying_value ⟨fun _ => ⟨3, false, 0, 0⟩, []⟩ 0 3 1 1 2 5
    true (by decide) (by decide) (by decide) (by decide) (by decide)
  exact ⟨h.1 (by decide), h.2 (by decide)⟩

/-- C6 counterexample: with a = 1, b = 3 on the free domain of width 2 the
disequality point solOf 1 3 2 = 1 is strictly interior; the negative
closed-form path returns true but leaves the domain unchanged, so the
solution point is not removed: the result is not the intersection with the
complement of the singleton. -/
theorem intersect_eq2_negative_interior_not_removed :
    solOf 1 3 2 = 1 ∧
    ViableSet.intersect_eq2 ⟨2, false, 0, 0⟩ 1 3 false = (true, ⟨2, false, 0, 0⟩) ∧
    ViableSet.contains (ViableSet.intersect_eq2 ⟨2, false, 0, 0⟩ 1 3 false).2
      (solOf 1 3 2) = true := by
  decide

/-- C6 (amended): for every odd a, the binary viable_set::intersect_eq
returns true and narrows through the unary path at the point
solOf a b = a⁻¹·(−b) mod 2^w, with no point-wise search.  Positively it
intersects with exactly the singleton of that point.  Negatively it never
removes any other point, and it removes the point exactly when the point
lies outside the domain or on its boundary (lo, hi − 1, or the top of the
wrap-to-top interval); a strictly interior point leaves the domain
unchanged instead of intersecting with the complement. -/
theorem intersect_eq2_closed_form (s : ViableSet) (a b : Nat) (pos : Bool)
    (hwf : VSwf s) (ha : a % 2 = 1) :
    s.intersect_eq2 a b pos = (true, s.intersect_eq1 (solOf a b s.numBits) pos) ∧
    (∀ x, x < 2 ^ s.numBits →
      ((s.intersect_eq1 (solOf a b s.numBits) true).contains x = true ↔
        (s.contains x = true ∧ x = solOf a b s.numBits))) ∧
    (∀ x, x < 2 ^ s.numBits → s.contains x = true → x ≠ solOf a b s.numBits →
      (s.intersect_eq1 (solOf a b s.numBits) false).contains x = true) ∧
    ((s.contains (solOf a b s.numBits) = false ∨ solOf a b s.numBits = s.lo ∨
      solOf a b s.numBits + 1 = s.hi ∨
      (s.hi = 0 ∧ s.is_max (solOf a b s.numBits) = true)) →
      ∀ x, x < 2 ^ s.numBits →
        ((s.intersect_eq1 (solOf a b s.numBits) false).contains x = true ↔
          (s.contains x = true ∧ x ≠ solOf a b s.numBits))) := by
  refine ⟨?_, ?_, ?_, ?_⟩
  · unfold ViableSet.intersect_eq2
    rw [if_pos ha]
    by_cases hb : b = 0
    · subst hb
      rw [if_pos rfl, solOf_zero]
    · rw [if_neg hb]
  · intro x hx
    exact ViableSet.intersect_eq1_pos_exact s _ x (solOf_lt a b s.numBits) hx
  · intro x hx hc hne
    exact ViableSet.intersect_eq1_neg_sound s _ x hx hc hne
  · intro hbnd x hx
    exact ViableSet.intersect_eq1_neg_exact s _ x hwf (solOf_lt a b s.numBits) hx hbnd

/-- Witness for C6 (amended): width 2, a = 3, b = 1; the solution is
solOf 3 1 2 = 1. -/
theorem intersect_eq2_closed_form_witness :
    ViableSet.intersect_eq2 ⟨2, false, 0, 0⟩ 3 1 true =
      (true, ViableSet.intersect_eq1 ⟨2, false, 0, 0⟩ (solOf 3 1 2) true) ∧
    ((ViableSet.intersect_eq1 ⟨2, false, 0, 0⟩ (solOf 3 1 2) true).contains 1 = true ↔
      (ViableSet.contains ⟨2, false, 0, 0⟩ 1 = true ∧ 1 = solOf 3 1 2)) := by
  have h := intersect_eq2_closed_form ⟨2, false, 0, 0⟩ 3 1 true (by decide) (by decide)
  exact ⟨h.1, h.2.1 1 (by decide)⟩

/-- C7 counterexample: viable::intersect_eq with the even coefficient a = 2,
b = 1, positive polarity on the free domain of width 8 exhausts its budget
of 10 probes (the constraint 2x + 1 = 0 mod 256 has no solution, so the
exact result would be the empty set), yet the operation neither falls back
to a diagram computation nor reports anything to the caller: the
under-narrowed domain [10, 256) is accepted as is, still containing the
violating value 10, and no conflict is signalled. -/
theorem intersect_eq_budget_exhaustion_accepts_domain :
    ((viable_intersect_eq 2 0 1 true ⟨fun _ => ⟨8, false, 0, 0⟩, []⟩).1.m_viable 0)
      = ⟨8, false, 10, 0⟩ ∧
    (ViableSet.intersect_eq_budget ⟨8, false, 0, 0⟩ 2 1 true 10).2 = 0 ∧
    ViableSet.contains ⟨8, false, 10, 0⟩ 10 = true ∧
    (2 * 10 + 1) % 2 ^ 8 ≠ 0 ∧
    (viable_intersect_eq 2 0 1 true ⟨fun _ => ⟨8, false, 0, 0⟩, []⟩).2 = none := by
  decide

/-- C7 (amended): when the bounded point-wise search exhausts its budget of
10 probes, viable::intersect_eq accepts the searched domain unchanged (no
diagram fallback, no signal to the caller beyond a log line), while
viable::intersect_ule falls back to the decision diagram for the lower
bound only: its result is contained in the searched domain and every value
it removes from it violates the asserted constraint. -/
theorem budget_exhaustion_behavior (V : ViableSet) (a b c d : Nat) (pos : Bool)
    (hwf : VSwf V) :
    (a % 2 = 0 → eqNewDomain V a b pos = (V.intersect_eq_budget a b pos 10).1) ∧
    (¬ (a % 2 = 1 ∧ b = 0 ∧ c = 0 ∧ d = 0) → ¬ (a = 1 ∧ b = 0 ∧ c = 0) →
     ¬ (a = 0 ∧ c = 1 ∧ d = 0) → (V.intersect_ule_budget a b c d pos 10).2 = 0 →
      (uleNewDomain V a b c d pos =
          uleBddRefine (V.intersect_ule_budget a b c d pos 10).1 a b c d pos ∧
        (∀ x, x < 2 ^ V.numBits →
          (uleNewDomain V a b c d pos).contains x = true →
          (V.intersect_ule_budget a b c d pos 10).1.contains x = true) ∧
        (∀ x, x < 2 ^ V.numBits →
          (V.intersect_ule_budget a b c d pos 10).1.contains x = true →
          (uleNewDomain V a b c d pos).contains x = false →
          ¬ uleSat a b c d V.numBits pos x))) := by
  constructor
  · intro ha
    unfold eqNewDomain
    rw [(fast_path_failure_leaves_domain_unchanged V a b c d pos).1 ha]
    simp
  · intro h1 h2 h3 hbud
    have hff : V.intersect_ule_fast a b c d pos = (false, V) :=
      (fast_path_failure_leaves_domain_unchanged V a b c d pos).2 h1 h2 h3
    have hres : uleNewDomain V a b c d pos =
        uleBddRefine (V.intersect_ule_budget a b c d pos 10).1 a b c d pos := by
      unfold uleNewDomain
      rw [hff]
      simp only [Bool.false_eq_true, if_false]
      rw [if_pos hbud]
    have hnwf : VSwf (V.intersect_ule_budget a b c d pos 10).1 := by
      unfold ViableSet.intersect_ule_budget
      exact ViableSet.narrow_wf _ _ _ hwf
    have hnb : (V.intersect_ule_budget a b c d pos 10).1.numBits = V.numBits := by
      unfold ViableSet.intersect_ule_budget
      exact ViableSet.narrow_numBits _ _ _
    refine ⟨hres, ?_, ?_⟩
    · intro x hx hcx
      rw [hres] at hcx
      unfold uleBddRefine at hcx
      cases hsup : fddSup (bddGt a b c d (V.intersect_ule_budget a b c d pos 10).1.numBits
          pos) (V.intersect_ule_budget a b c d pos 10).1.numBits
          (V.intersect_ule_budget a b c d pos 10).1.lo with
      | none =>
        rw [hsup] at hcx
        exact hcx
      | some bnd =>
        rw [hsup] at hcx
        exact set_lo_shrink _ bnd x (set_ne_shrink _ bnd x hcx)
    · intro x hx hcx hncx hsat
      have hs : (uleBddRefine (V.intersect_ule_budget a b c d pos 10).1 a b c d
          pos).contains x = true := by
        refine uleBddRefine_sound _ a b c d x pos hnwf ?_ hcx ?_
        · rwa [hnb]
        · rwa [hnb]
      rw [hres] at hncx
      rw [hncx] at hs
      exact absurd hs (by simp)

/-- Witness for C7 (amended): width 8, constraint 5 <= 2 (identically
false), positive polarity, free initial domain: the bounded search burns
the whole budget raising lo to 10, and the diagram fallback then empties
the domain. -/
theorem budget_exhaustion_behavior_witness :
    eqNewDomain ⟨8, false, 0, 0⟩ 2 1 true =
      (ViableSet.intersect_eq_budget ⟨8, false, 0, 0⟩ 2 1 true 10).1 ∧
    uleNewDomain ⟨8, false, 0, 0⟩ 0 5 0 2 true =
      uleBddRefine (ViableSet.intersect_ule_budget ⟨8, false, 0, 0⟩ 0 5 0 2 true 10).1
        0 5 0 2 true := by
  have h := budget_exhaustion_behavior ⟨8, false, 0, 0⟩ 0 5 0 2 true (by decide)
  have h2 := budget_exhaustion_behavior ⟨8, false, 0, 0⟩ 2 1 0 0 true (by decide)
  exact ⟨h2.1 (by decide),
    (h.2 (by decide) (by decide) (by decide) (by decide)).1⟩

/-! ## Linear solver lemmas -/

theorem getD_setFix (l : List (Option Fixplex)) (sz : Nat) (b : Option Fixplex)
    (j : Nat) :
    (setFix l sz b).getD j none = if j = sz then b else l.getD j none := by
  unfold setFix
  have hlen : sz < (l ++ List.replicate (sz + 1 - l.length) none).length := by
    simp [List.length_append, List.length_replicate]
    omega
  by_cases h : j = sz
  · subst h
    rw [if_pos rfl, List.getD_eq_getElem?_getD, List.getElem?_set_self hlen]
    rfl
  · rw [if_neg h]
    rw [List.getD_eq_getElem?_getD, List.getD_eq_getElem?_getD]
    rw [List.getElem?_set_ne (by omega)]
    rw [List.getElem?_append]
    by_cases hj : j < l.length
    · rw [if_pos hj]
    · rw [if_neg hj]
      rw [List.getElem?_replicate]
      rw [List.getElem?_eq_none (by omega)]
      by_cases hh : j - l.length < sz + 1 - l.length
      · rw [if_pos hh]
        rfl
      · rw [if_neg hh]

theorem getFix_putFix (s : LState) (sz : Nat) (fp : Fixplex) (j : Nat) :
    getFix (putFix sz fp s) j = if j = sz then some fp else getFix s j := by
  unfold getFix putFix
  exact getD_setFix _ _ _ _

theorem getFix_allocFix (s : LState) (sz : Nat) (k : EngineKind) (j : Nat) :
    getFix (allocFix sz k s).2 j = if j = sz then some (emptyFixplex k) else getFix s j := by
  unfold getFix allocFix
  exact getD_setFix _ _ _ _

theorem kindInv_putFix (s : LState) (sz : Nat) (fp : Fixplex)
    (hs : KindInv s) (hk : EngineKindFor sz fp.kind) : KindInv (putFix sz fp s) := by
  intro w fp' h
  rw [getFix_putFix] at h
  split_ifs at h with hw
  · cases h
    rwa [hw]
  · exact hs w fp' h

theorem sz2fixplex_kindInv (sz : Nat) (s : LState) (fp : Fixplex) (s1 : LState)
    (hs : KindInv s) (h : sz2fixplex sz s = .ok (fp, s1)) :
    KindInv s1 ∧ EngineKindFor sz fp.kind ∧ getFix s1 sz = some fp ∧
      s1.m_trail = s.m_trail ∧ s1.m_rows = s.m_rows ∧
      s1.m_sz2num_vars = s.m_sz2num_vars ∧ s1.m_mono2var = s.m_mono2var ∧
      s1.m_monomials = s.m_monomials ∧ s1.m_bool_var2row = s.m_bool_var2row := by
  unfold sz2fixplex at h
  cases hg : getFix s sz with
  | some b =>
    rw [hg] at h
    injection h with h'
    injection h' with hfp hst
    subst hfp
    subst hst
    exact ⟨hs, hs sz b hg, hg, rfl, rfl, rfl, rfl, rfl, rfl⟩
  | none =>
    rw [hg] at h
    have key : ∀ k : EngineKind, EngineKindFor sz k →
        fp = emptyFixplex k → s1 = (allocFix sz k s).2 →
        KindInv s1 ∧ EngineKindFor sz fp.kind ∧ getFix s1 sz = some fp ∧
        s1.m_trail = s.m_trail ∧ s1.m_rows = s.m_rows ∧
        s1.m_sz2num_vars = s.m_sz2num_vars ∧ s1.m_mono2var = s.m_mono2var ∧
        s1.m_monomials = s.m_monomials ∧ s1.m_bool_var2row = s.m_bool_var2row := by
      intro k hk hfp hst
      subst hfp
      subst hst
      refine ⟨?_, hk, ?_, rfl, rfl, rfl, rfl, rfl, rfl⟩
      · intro w fp' hw
        rw [getFix_allocFix] at hw
        split_ifs at hw with hww
        · injection hw with hw'
          subst hww
          rw [← hw']
          exact hk
        · exact hs w fp' hw
      · rw [getFix_allocFix, if_pos rfl]
    split_ifs at h with h32 h64 h128 h256
    · injection h with h'
      exact key .u32 (Or.inl ⟨h32, rfl⟩)
        (congrArg Prod.fst h').symm (congrArg Prod.snd h').symm
    · injection h with h'
      exact key .u64 (Or.inr (Or.inl ⟨h64, rfl⟩))
        (congrArg Prod.fst h').symm (congrArg Prod.snd h').symm
    · injection h with h'
      exact key .u256 (Or.inr (Or.inr ⟨h256, rfl⟩))
        (congrArg Prod.fst h').symm (congrArg Prod.snd h').symm

theorem mono2var_m_fix (sz : Nat) (vars : List Nat) (s : LState) :
    (mono2var sz vars s).2.m_fix = s.m_fix := by
  unfold mono2var fresh_var
  cases findMono sz vars s.m_mono2var <;> rfl

theorem linearize_m_fix (sz : Nat) (ms : List (Nat × List Nat)) (s : LState) :
    (linearize sz ms s).2.2.m_fix = s.m_fix := by
  induction ms generalizing s with
  | nil => rfl
  | cons m rest ih =>
    unfold linearize
    rw [ih, mono2var_m_fix]

theorem kindInv_m_fix_eq (s t : LState) (h : t.m_fix = s.m_fix) (hs : KindInv s) :
    KindInv t := by
  intro w fp hw
  apply hs w fp
  unfold getFix at hw ⊢
  rwa [h] at hw

theorem internalize_kindInv (p : Pdd) (s : LState) (v : Nat) (s1 : LState)
    (hs : KindInv s) (h : internalize_pdd p s = .ok (v, s1)) : KindInv s1 := by
  simp only [internalize_pdd] at h
  split_ifs at h with hone
  · cases h
    exact kindInv_m_fix_eq s _ (linearize_m_fix _ _ _) hs
  · have hlin : KindInv (fresh_var p.width (linearize p.width p.monos s).2.2).2 := by
      refine kindInv_m_fix_eq s _ ?_ hs
      show (fresh_var p.width (linearize p.width p.monos s).2.2).2.m_fix = s.m_fix
      rw [show (fresh_var p.width (linearize p.width p.monos s).2.2).2.m_fix =
        (linearize p.width p.monos s).2.2.m_fix from rfl]
      exact linearize_m_fix _ _ _
    cases hfx : sz2fixplex p.width (fresh_var p.width (linearize p.width p.monos s).2.2).2 with
    | error e =>
      rw [hfx] at h
      cases h
    | ok r =>
      rw [hfx] at h
      cases h
      obtain ⟨hk1, hk2, _⟩ := sz2fixplex_kindInv _ _ _ _ hlin hfx
      have : KindInv (putFix p.width
          (Fixplex.add_row (fresh_var p.width (linearize p.width p.monos s).2.2).1
            ((linearize p.width p.monos s).1 ++
              [(fresh_var p.width (linearize p.width p.monos s).2.2).1])
            ((linearize p.width p.monos s).2.1 ++ [2 ^ p.width - 1]) r.1) r.2) :=
        kindInv_putFix _ _ _ hk1 hk2
      intro w fp hw
      exact this w fp hw

theorem kindInv_pushBound (v sz : Nat) (fp : Fixplex) (s : LState)
    (hs : KindInv s) (hk : EngineKindFor sz fp.kind) : KindInv (pushBound v sz fp s) := by
  exact kindInv_m_fix_eq (putFix sz fp s) _ rfl (kindInv_putFix s sz fp hs hk)

theorem new_eq_kindInv (c : EqC) (s s' : LState)
    (hs : KindInv s) (h : new_eq c s = .ok s') : KindInv s' := by
  unfold new_eq at h
  cases hi : internalize_pdd c.p s with
  | error e =>
    rw [hi] at h
    cases h
  | ok r =>
    rw [hi] at h
    injection h with h'
    subst h'
    exact kindInv_m_fix_eq r.2 _ rfl (internalize_kindInv c.p s r.1 r.2 hs (by rw [hi]))

theorem assert_eq_kindInv (c : EqC) (s s' : LState)
    (hs : KindInv s) (h : assert_eq c s = .ok s') : KindInv s' := by
  unfold assert_eq at h
  cases hb : s.m_bool_var2row c.bvar with
  | none =>
    rw [hb] at h
    cases h
  | some vw =>
    rw [hb] at h
    dsimp only at h
    cases hfx : sz2fixplex c.p.width s with
    | error e =>
      rw [hfx] at h
      cases h
    | ok r =>
      rw [hfx] at h
      injection h with h'
      subst h'
      obtain ⟨hk1, hk2, _⟩ := sz2fixplex_kindInv _ _ _ _ hs hfx
      have hk1' : KindInv
          { r.2 with
              m_trail := TrailI.set_bound :: r.2.m_trail,
              m_rows := (vw.1, c.p.width) :: r.2.m_rows } :=
        kindInv_m_fix_eq r.2 _ rfl hk1
      cases hp : c.pos
      · exact kindInv_putFix _ _ _ hk1' hk2
      · exact kindInv_putFix _ _ _ hk1' hk2

theorem new_le_kindInv (c : UleC) (s s' : LState)
    (hs : KindInv s) (h : new_le c s = .ok s') : KindInv s' := by
  unfold new_le at h
  cases hi : internalize_pdd c.lhs s with
  | error e =>
    rw [hi] at h
    cases h
  | ok r =>
    rw [hi] at h
    dsimp only at h
    cases hj : internalize_pdd c.rhs r.2 with
    | error e =>
      rw [hj] at h
      cases h
    | ok q =>
      rw [hj] at h
      injection h with h'
      subst h'
      have h1 := internalize_kindInv c.lhs s r.1 r.2 hs (by rw [hi])
      have h2 := internalize_kindInv c.rhs r.2 q.1 q.2 h1 (by rw [hj])
      exact kindInv_m_fix_eq q.2 _ rfl h2

theorem assert_le_kindInv (c : UleC) (s s' : LState)
    (hs : KindInv s) (h : assert_le c s = .ok s') : KindInv s' := by
  unfold assert_le at h
  cases hb : s.m_bool_var2row c.bvar with
  | none =>
    rw [hb] at h
    cases h
  | some vw =>
    rw [hb] at h
    dsimp only at h
    cases hfx : sz2fixplex c.lhs.width s with
    | error e =>
      rw [hfx] at h
      cases h
    | ok r =>
      rw [hfx] at h
      obtain ⟨hk1, hk2, _⟩ := sz2fixplex_kindInv _ _ _ _ hs hfx
      split_ifs at h
      all_goals
        first
        | exact Except.noConfusion h
        | (injection h with h'
           subst h'
           first
           | exact kindInv_pushBound _ _ _ _ hk1 hk2
           | exact kindInv_m_fix_eq (putFix c.lhs.width _ r.2) _ rfl
               (kindInv_putFix _ _ _ hk1 hk2))

theorem lin_set_value_kindInv (szOf : Nat → Nat) (v value : Nat) (s s' : LState)
    (hs : KindInv s) (h : lin_set_value szOf v value s = .ok s') : KindInv s' := by
  unfold lin_set_value at h
  cases hfx : sz2fixplex (szOf v) s with
  | error e =>
    rw [hfx] at h
    cases h
  | ok r =>
    rw [hfx] at h
    injection h with h'
    subst h'
    obtain ⟨hk1, hk2, _⟩ := sz2fixplex_kindInv _ _ _ _ hs hfx
    have hk1' : KindInv (pvar2var (szOf v) v r.2).2 :=
      kindInv_m_fix_eq r.2 _ (mono2var_m_fix _ _ _) hk1
    exact kindInv_pushBound _ _ _ _ hk1' hk2

theorem lin_set_bound_kindInv (szOf : Nat → Nat) (v lo hi : Nat) (s s' : LState)
    (hs : KindInv s) (h : lin_set_bound szOf v lo hi s = .ok s') : KindInv s' := by
  unfold lin_set_bound at h
  cases hfx : sz2fixplex (szOf v) s with
  | error e =>
    rw [hfx] at h
    cases h
  | ok r =>
    rw [hfx] at h
    injection h with h'
    subst h'
    obtain ⟨hk1, hk2, _⟩ := sz2fixplex_kindInv _ _ _ _ hs hfx
    have hk1' : KindInv (pvar2var (szOf v) v r.2).2 :=
      kindInv_m_fix_eq r.2 _ (mono2var_m_fix _ _ _) hk1
    exact kindInv_pushBound _ _ _ _ hk1' hk2

theorem runOp_kindInv (szOf : Nat → Nat) (op : Op) (cs cs' : CState)
    (hs : KindInv cs.lin) (h : runOp szOf op cs = .ok cs') : KindInv cs'.lin := by
  cases op with
  | push =>
    injection h with h'
    subst h'
    exact kindInv_m_fix_eq cs.lin _ rfl hs
  | newEq c =>
    simp only [runOp] at h
    cases he : new_eq c cs.lin with
    | error e =>
      rw [he] at h
      cases h
    | ok l =>
      rw [he] at h
      injection h with h'
      subst h'
      exact new_eq_kindInv c cs.lin l hs he
  | assertEq c =>
    simp only [runOp] at h
    cases he : assert_eq c cs.lin with
    | error e =>
      rw [he] at h
      cases h
    | ok l =>
      rw [he] at h
      injection h with h'
      subst h'
      exact assert_eq_kindInv c cs.lin l hs he
  | newLe c =>
    simp only [runOp] at h
    cases he : new_le c cs.lin with
    | error e =>
      rw [he] at h
      cases h
    | ok l =>
      rw [he] at h
      injection h with h'
      subst h'
      exact new_le_kindInv c cs.lin l hs he
  | assertLe c =>
    simp only [runOp] at h
    cases he : assert_le c cs.lin with
    | error e =>
      rw [he] at h
      cases h
    | ok l =>
      rw [he] at h
      injection h with h'
      subst h'
      exact assert_le_kindInv c cs.lin l hs he
  | setValue v value =>
    simp only [runOp] at h
    cases he : lin_set_value szOf v value cs.lin with
    | error e =>
      rw [he] at h
      cases h
    | ok l =>
      rw [he] at h
      injection h with h'
      subst h'
      exact lin_set_value_kindInv szOf v value cs.lin l hs he
  | setBound v lo hi =>
    simp only [runOp] at h
    cases he : lin_set_bound szOf v lo hi cs.lin with
    | error e =>
      rw [he] at h
      cases h
    | ok l =>
      rw [he] at h
      injection h with h'
      subst h'
      exact lin_set_bound_kindInv szOf v lo hi cs.lin l hs he
  | vIntersectEq a v b pos =>
    injection h with h'
    subst h'
    exact kindInv_m_fix_eq cs.lin _ rfl hs
  | vIntersectUle v a b c d pos =>
    injection h with h'
    subst h'
    exact kindInv_m_fix_eq cs.lin _ rfl hs
  | vAddNonViable v value =>
    injection h with h'
    subst h'
    exact kindInv_m_fix_eq cs.lin _ rfl hs

theorem runOps_kindInv (szOf : Nat → Nat) (ops : List Op) (cs cs' : CState)
    (hs : KindInv cs.lin) (h : runOps szOf ops cs = .ok cs') : KindInv cs'.lin := by
  induction ops generalizing cs with
  | nil =>
    injection h with h'
    subst h'
    exact hs
  | cons op rest ih =>
    unfold runOps at h
    cases ho : runOp szOf op cs with
    | error e =>
      rw [ho] at h
      cases h
    | ok cs1 =>
      rw [ho] at h
      exact ih cs1 (runOp_kindInv szOf op cs cs1 hs ho) h

theorem sz2fixplex_getFix (sz : Nat) (s : LState) (fp : Fixplex) (s1 : LState)
    (h : sz2fixplex sz s = .ok (fp, s1)) : getFix s1 sz = some fp := by
  unfold sz2fixplex at h
  cases hg : getFix s sz with
  | some b =>
    rw [hg] at h
    injection h with h'
    injection h' with hfp hst
    subst hfp
    subst hst
    exact hg
  | none =>
    rw [hg] at h
    split_ifs at h <;>
      (injection h with h'
       have hs1 := congrArg Prod.snd h'
       have hfp := congrArg Prod.fst h'
       dsimp only at hs1 hfp
       subst hs1
       subst hfp
       rw [getFix_allocFix, if_pos rfl]
       rfl)

/-- C8: sz2fixplex constructs a feasibility engine lazily, once per distinct
bit width on first use — a later lookup returns the cached engine with the
state unchanged — with the concrete instantiation matching the width for
32, 64 and 256; width 128 and every other unsupported width fail with the
distinguishable NOT_IMPLEMENTED_YET signal instead of allocating anything;
and along any run from the initial state every allocated engine carries
the instantiation of its own width, so an engine of a different width is
never silently substituted. -/
theorem sz2fixplex_lazy_per_width (sz : Nat) (s : LState) :
    (getFix s sz = none →
      ((sz = 32 → sz2fixplex sz s = .ok (allocFix sz .u32 s)) ∧
       (sz = 64 → sz2fixplex sz s = .ok (allocFix sz .u64 s)) ∧
       (sz = 256 → sz2fixplex sz s = .ok (allocFix sz .u256 s)) ∧
       (sz ≠ 32 → sz ≠ 64 → sz ≠ 256 →
         sz2fixplex sz s = .error .notImplemented))) ∧
    (∀ fp, getFix s sz = some fp → sz2fixplex sz s = .ok (fp, s)) ∧
    (∀ fp s1, sz2fixplex sz s = .ok (fp, s1) → sz2fixplex sz s1 = .ok (fp, s1)) ∧
    (∀ szOf ops cs, runOps szOf ops (initC szOf) = .ok cs →
      ∀ w fp, getFix cs.lin w = some fp → EngineKindFor w fp.kind) := by
  refine ⟨?_, ?_, ?_, ?_⟩
  · intro hg
    refine ⟨?_, ?_, ?_, ?_⟩
    · intro h32
      subst h32
      unfold sz2fixplex
      rw [hg]
      rfl
    · intro h64
      subst h64
      unfold sz2fixplex
      rw [hg]
      rfl
    · intro h256
      subst h256
      unfold sz2fixplex
      rw [hg]
      rfl
    · intro h1 h2 h3
      unfold sz2fixplex
      rw [hg]
      rw [if_neg h1, if_neg h2]
      by_cases h128 : sz = 128
      · rw [if_pos h128]
      · rw [if_neg h128, if_neg h3]
  · intro fp h
    unfold sz2fixplex
    rw [h]
  · intro fp s1 h
    have := sz2fixplex_getFix sz s fp s1 h
    unfold sz2fixplex
    rw [this]
  · intro szOf ops cs hrun w fp h
    have hinit : KindInv (initC szOf).lin := by
      intro w' fp' h'
      simp [getFix, initC] at h'
    exact runOps_kindInv szOf ops _ cs hinit hrun w fp h

/-- Witness for C8: width 128 fails from the initial state, width 32
allocates its engine. -/
theorem sz2fixplex_lazy_per_width_witness :
    sz2fixplex 128 (initC (fun _ => 32)).lin = .error .notImplemented ∧
    sz2fixplex 32 (initC (fun _ => 32)).lin =
      .ok (allocFix 32 .u32 (initC (fun _ => 32)).lin) := by
  have h := sz2fixplex_lazy_per_width 128 (initC (fun _ => 32)).lin
  have h2 := sz2fixplex_lazy_per_width 32 (initC (fun _ => 32)).lin
  exact ⟨(h.1 rfl).2.2.2 (by decide) (by decide) (by decide), (h2.1 rfl).1 rfl⟩

/-- C4: the claim is right and the code is wrong: asserting x <= 2^32 - 1
with negative polarity at width 32 should surface the unimplemented-conflict
condition (the right-hand constant is the maximum representable value), but
the local is_max_value flag of assert_le is initialized to false and never
updated, so the dead throw is skipped and the activation silently succeeds,
setting the out-of-range wrapped lower bound 2^32 (and upper bound 0) on the
left-hand variable. -/
theorem assert_le_max_constant_silently_wraps :
    (runOps (fun _ => 32)
        [.newLe ⟨0, ⟨32, [(1, [0])]⟩, ⟨32, [(2 ^ 32 - 1, [])]⟩, false⟩,
         .assertLe ⟨0, ⟨32, [(1, [0])]⟩, ⟨32, [(2 ^ 32 - 1, [])]⟩, false⟩]
        (initC (fun _ => 32))).map
      (fun cs => (getFix cs.lin 32).map (fun fp => fp.bounds 0)) =
      .ok (some (some (2 ^ 32, 0))) := by
  rfl

theorem checkTraceAux_le (mf : Fixplex → Lbool) (l : List (Option Fixplex)) :
    ∀ i w, w ∈ checkTraceAux mf l i → i ≤ w := by
  induction l with
  | nil =>
    intro i w hw
    simp [checkTraceAux] at hw
  | cons a rest ih =>
    intro i w hw
    cases a with
    | none =>
      have hw' : w ∈ checkTraceAux mf rest (i + 1) := hw
      have := ih (i + 1) w hw'
      omega
    | some f =>
      unfold checkTraceAux at hw
      by_cases hf : mf f = .lFalse
      · rw [if_pos hf] at hw
        simp at hw
        omega
      · rw [if_neg hf] at hw
        rcases List.mem_cons.mp hw with h | h
        · omega
        · have := ih (i + 1) w h
          omega

theorem checkTraceAux_chain (mf : Fixplex → Lbool) (l : List (Option Fixplex)) :
    ∀ i, List.Chain' (fun a b => a < b) (checkTraceAux mf l i) := by
  induction l with
  | nil =>
    intro i
    simp [checkTraceAux]
  | cons a rest ih =>
    intro i
    cases a with
    | none =>
      exact ih (i + 1)
    | some f =>
      unfold checkTraceAux
      by_cases hf : mf f = .lFalse
      · rw [if_pos hf]
        simp
      · rw [if_neg hf]
        refine List.chain'_cons'.mpr ⟨?_, ih (i + 1)⟩
        intro b hb
        have hmem : b ∈ checkTraceAux mf rest (i + 1) := List.mem_of_mem_head? hb
        have := checkTraceAux_le mf rest (i + 1) b hmem
        omega

theorem checkTraceAux_stop (mf : Fixplex → Lbool) (l : List (Option Fixplex)) :
    ∀ i w, w ∈ checkTraceAux mf l i →
      ∃ fp, l.getD (w - i) none = some fp ∧
        (mf fp = .lFalse → (checkTraceAux mf l i).getLast? = some w) := by
  induction l with
  | nil =>
    intro i w hw
    simp [checkTraceAux] at hw
  | cons a rest ih =>
    intro i w hw
    cases a with
    | none =>
      have hw' : w ∈ checkTraceAux mf rest (i + 1) := hw
      obtain ⟨fp, h1, h2⟩ := ih (i + 1) w hw'
      have hle := checkTraceAux_le mf rest (i + 1) w hw'
      refine ⟨fp, ?_, fun hmf => h2 hmf⟩
      have hwi : w - i = (w - (i + 1)) + 1 := by omega
      rw [hwi]
      simpa using h1
    | some f =>
      unfold checkTraceAux at hw ⊢
      by_cases hf : mf f = .lFalse
      · rw [if_pos hf] at hw ⊢
        simp at hw
        subst hw
        exact ⟨f, by simp, fun _ => by simp⟩
      · rw [if_neg hf] at hw ⊢
        rcases List.mem_cons.mp hw with heq | hmem
        · subst heq
          refine ⟨f, by simp, fun hmf => absurd hmf hf⟩
        · obtain ⟨fp, h1, h2⟩ := ih (i + 1) w hmem
          have hle := checkTraceAux_le mf rest (i + 1) w hmem
          refine ⟨fp, ?_, ?_⟩
          · have hwi : w - i = (w - (i + 1)) + 1 := by omega
            rw [hwi]
            simpa using h1
          · intro hmf
            have htail := h2 hmf
            cases hl : checkTraceAux mf rest (i + 1) with
            | nil =>
              rw [hl] at hmem
              simp at hmem
            | cons b t =>
              rw [hl] at htail
              rw [List.getLast?_cons_cons]
              exact htail

theorem checkAux_eq_lFalse (mf : Fixplex → Lbool) (l : List (Option Fixplex)) :
    ∀ res, res ≠ .lFalse →
      (checkAux mf l res = .lFalse ↔ ∃ fp, some fp ∈ l ∧ mf fp = .lFalse) := by
  induction l with
  | nil =>
    intro res hres
    simp [checkAux, hres]
  | cons a rest ih =>
    intro res hres
    cases a with
    | none =>
      rw [show checkAux mf (none :: rest) res = checkAux mf rest res from rfl,
        ih res hres]
      constructor
      · rintro ⟨fp, hm, hmf⟩
        exact ⟨fp, List.mem_cons_of_mem _ hm, hmf⟩
      · rintro ⟨fp, hm, hmf⟩
        rcases List.mem_cons.mp hm with heq | hm'
        · exact absurd heq (by simp)
        · exact ⟨fp, hm', hmf⟩
    | some f =>
      cases hf : mf f with
      | lFalse =>
        constructor
        · intro _
          exact ⟨f, List.mem_cons_self _ _, hf⟩
        · intro _
          simp only [checkAux, hf]
      | lUndef =>
        simp only [checkAux, hf]
        rw [ih .lUndef (by simp)]
        constructor
        · rintro ⟨fp, hm, hmf⟩
          exact ⟨fp, List.mem_cons_of_mem _ hm, hmf⟩
        · rintro ⟨fp, hm, hmf⟩
          rcases List.mem_cons.mp hm with heq | hm'
          · injection heq with h2
            subst h2
            rw [hf] at hmf
            exact absurd hmf (by simp)
          · exact ⟨fp, hm', hmf⟩
      | lTrue =>
        simp only [checkAux, hf]
        rw [ih res hres]
        constructor
        · rintro ⟨fp, hm, hmf⟩
          exact ⟨fp, List.mem_cons_of_mem _ hm, hmf⟩
        · rintro ⟨fp, hm, hmf⟩
          rcases List.mem_cons.mp hm with heq | hm'
          · injection heq with h2
            subst h2
            rw [hf] at hmf
            exact absurd hmf (by simp)
          · exact ⟨fp, hm', hmf⟩

theorem checkAux_eq_lTrue (mf : Fixplex → Lbool) (l : List (Option Fixplex)) :
    ∀ res, checkAux mf l res = .lTrue ↔
      res = .lTrue ∧ ∀ fp, some fp ∈ l → mf fp = .lTrue := by
  induction l with
  | nil =>
    intro res
    simp [checkAux]
  | cons a rest ih =>
    intro res
    cases a with
    | none =>
      rw [show checkAux mf (none :: rest) res = checkAux mf rest res from rfl,
        ih res]
      constructor
      · rintro ⟨h1, h2⟩
        refine ⟨h1, fun fp hm => ?_⟩
        rcases List.mem_cons.mp hm with heq | hm'
        · exact absurd heq (by simp)
        · exact h2 fp hm'
      · rintro ⟨h1, h2⟩
        exact ⟨h1, fun fp hm => h2 fp (List.mem_cons_of_mem _ hm)⟩
    | some f =>
      cases hf : mf f with
      | lFalse =>
        constructor
        · intro h
          simp only [checkAux, hf] at h
          exact absurd h (by simp)
        · rintro ⟨h1, h2⟩
          have := h2 f (List.mem_cons_self _ _)
          rw [hf] at this
          exact absurd this (by simp)
      | lUndef =>
        constructor
        · intro h
          simp only [checkAux, hf] at h
          have := ((ih .lUndef).mp h).1
          exact absurd this (by simp)
        · rintro ⟨h1, h2⟩
          have := h2 f (List.mem_cons_self _ _)
          rw [hf] at this
          exact absurd this (by simp)
      | lTrue =>
        simp only [checkAux, hf]
        rw [ih res]
        constructor
        · rintro ⟨h1, h2⟩
          refine ⟨h1, fun fp hm => ?_⟩
          rcases List.mem_cons.mp hm with heq | hm'
          · injection heq with h3
            subst h3
            exact hf
          · exact h2 fp hm'
        · rintro ⟨h1, h2⟩
          exact ⟨h1, fun fp hm => h2 fp (List.mem_cons_of_mem _ hm)⟩

/-- C5 counterexample: creating the width-64 engine before the width-32
engine makes the partition creation order [64, 32], but check() polls the
engine table in ascending width (slot index) order, so with the width-32
engine infeasible and the width-64 engine feasible the observed polling
sequence is [32] — the width-64 engine is never polled — while
creation-order polling would observe [64, 32]. -/
theorem check_polls_table_order_not_creation_order :
    (runOps (fun v => if v = 0 then 64 else 32)
        [.setBound 0 0 1, .setBound 1 0 1]
        (initC (fun v => if v = 0 then 64 else 32))).map
      (fun cs =>
        (cs.lin.m_created,
         checkTrace (fun fp => if fp.kind = .u32 then .lFalse else .lTrue) cs.lin,
         pollInOrder (fun fp => if fp.kind = .u32 then .lFalse else .lTrue) cs.lin
           cs.lin.m_created)) =
      .ok ([64, 32], [32], [64, 32]) ∧ ([32] : List Nat) ≠ [64, 32] :=
  ⟨rfl, by decide⟩

/-- C5 (amended): check() returns infeasible exactly when some allocated
engine reports infeasible (first-infeasible-wins), feasible exactly when
every allocated engine reports feasible, and unknown exactly when no engine
reports infeasible but some engine reports unknown; the widths it polls are
strictly increasing — the iteration is in ascending width order, not
partition creation order — every polled width holds an allocated engine,
and a polled engine reporting infeasible ends the iteration: its width is
the last one polled. -/
theorem check_aggregation_and_order (mf : Fixplex → Lbool) (s : LState) :
    (lin_check mf s = .lFalse ↔ ∃ fp, some fp ∈ s.m_fix ∧ mf fp = .lFalse) ∧
    (lin_check mf s = .lTrue ↔ ∀ fp, some fp ∈ s.m_fix → mf fp = .lTrue) ∧
    (lin_check mf s = .lUndef ↔
      ((∀ fp, some fp ∈ s.m_fix → mf fp ≠ .lFalse) ∧
       ∃ fp, some fp ∈ s.m_fix ∧ mf fp = .lUndef)) ∧
    List.Chain' (fun a b => a < b) (checkTrace mf s) ∧
    (∀ w, w ∈ checkTrace mf s →
      ∃ fp, getFix s w = some fp ∧
        (mf fp = .lFalse → (checkTrace mf s).getLast? = some w)) := by
  have hF : lin_check mf s = .lFalse ↔ ∃ fp, some fp ∈ s.m_fix ∧ mf fp = .lFalse :=
    checkAux_eq_lFalse mf s.m_fix .lTrue (by simp)
  have hT : lin_check mf s = .lTrue ↔
      Lbool.lTrue = .lTrue ∧ ∀ fp, some fp ∈ s.m_fix → mf fp = .lTrue :=
    checkAux_eq_lTrue mf s.m_fix .lTrue
  have hT' : lin_check mf s = .lTrue ↔ ∀ fp, some fp ∈ s.m_fix → mf fp = .lTrue := by
    rw [hT]
    simp
  refine ⟨hF, hT', ?_, checkTraceAux_chain mf s.m_fix 0, ?_⟩
  · constructor
    · intro h
      constructor
      · intro fp hm hmf
        have hfalse : lin_check mf s = .lFalse := hF.mpr ⟨fp, hm, hmf⟩
        rw [hfalse] at h
        exact absurd h (by simp)
      · by_contra hnone
        push_neg at hnone
        have hall : ∀ fp, some fp ∈ s.m_fix → mf fp = .lTrue := by
          intro fp hm
          cases hmf : mf fp with
          | lTrue => rfl
          | lFalse =>
            have hfalse : lin_check mf s = .lFalse := hF.mpr ⟨fp, hm, hmf⟩
            rw [hfalse] at h
            exact absurd h (by simp)
          | lUndef => exact absurd hmf (hnone fp hm)
        have htrue : lin_check mf s = .lTrue := hT'.mpr hall
        rw [htrue] at h
        exact absurd h (by simp)
    · rintro ⟨hnf, fp, hm, hmf⟩
      cases hres : lin_check mf s with
      | lUndef => rfl
      | lFalse =>
        obtain ⟨fp', hm', hmf'⟩ := hF.mp hres
        exact absurd hmf' (hnf fp' hm')
      | lTrue =>
        have := hT'.mp hres fp hm
        rw [this] at hmf
        exact absurd hmf (by simp)
  · intro w hw
    obtain ⟨fp, h1, h2⟩ := checkTraceAux_stop mf s.m_fix 0 w hw
    refine ⟨fp, ?_, h2⟩
    show s.m_fix.getD w none = some fp
    simpa using h1

/-- Witness for C5: on the empty engine table check() is feasible. -/
theorem check_aggregation_and_order_witness :
    lin_check (fun _ => Lbool.lUndef) (initC (fun _ => 32)).lin = .lTrue := by
  have h := check_aggregation_and_order (fun _ => Lbool.lUndef) (initC (fun _ => 32)).lin
  exact h.2.1.mpr (fun fp hm => nomatch hm)

theorem monoPres_refl (s : LState) : MonoPres s s := fun _ _ _ h => h

theorem monoPres_trans (s t u : LState) (h1 : MonoPres s t) (h2 : MonoPres t u) :
    MonoPres s u := fun sz vars m hm => h2 sz vars m (h1 sz vars m hm)

theorem monoPres_of_eq (s t : LState) (h : t.m_mono2var = s.m_mono2var) :
    MonoPres s t := fun sz vars m hm => by rw [h]; exact hm

theorem findMono_cons_ne (sz : Nat) (vars : List Nat) (m1 : MonoInfo)
    (tbl : List MonoInfo) (h : ¬(m1.sz = sz ∧ m1.vars = vars)) :
    findMono sz vars (m1 :: tbl) = findMono sz vars tbl := by
  unfold findMono
  exact List.find?_cons_of_neg _ (by simpa using h)

theorem findMono_cons_self (sz : Nat) (vars : List Nat) (c : Nat)
    (tbl : List MonoInfo) :
    findMono sz vars ((⟨sz, vars, c⟩ : MonoInfo) :: tbl) = some ⟨sz, vars, c⟩ := by
  unfold findMono
  exact List.find?_cons_of_pos _ (by simp)

theorem monoPres_mono2var (sz0 : Nat) (vars0 : List Nat) (s : LState) :
    MonoPres s (mono2var sz0 vars0 s).2 := by
  intro sz vars m hm
  cases h0 : findMono sz0 vars0 s.m_mono2var with
  | some m1 =>
    simp only [mono2var, h0]
    exact hm
  | none =>
    simp only [mono2var, fresh_var, h0]
    have hne : ¬((⟨sz0, vars0, s.m_sz2num_vars sz0⟩ : MonoInfo).sz = sz ∧
        (⟨sz0, vars0, s.m_sz2num_vars sz0⟩ : MonoInfo).vars = vars) := by
      rintro ⟨h1, h2⟩
      dsimp only at h1 h2
      rw [← h1, ← h2] at hm
      rw [hm] at h0
      exact Option.noConfusion h0
    rw [findMono_cons_ne sz vars _ _ hne]
    exact hm

theorem monoPres_linearize (sz0 : Nat) (ms : List (Nat × List Nat)) (s : LState) :
    MonoPres s (linearize sz0 ms s).2.2 := by
  induction ms generalizing s with
  | nil => exact monoPres_refl s
  | cons mm rest ih =>
    exact monoPres_trans _ _ _ (monoPres_mono2var sz0 mm.2 s)
      (ih (mono2var sz0 mm.2 s).2)

theorem sz2fixplex_m_mono2var (sz : Nat) (s : LState) (r : Fixplex × LState)
    (h : sz2fixplex sz s = .ok r) : r.2.m_mono2var = s.m_mono2var := by
  unfold sz2fixplex at h
  cases hg : getFix s sz with
  | some b =>
    rw [hg] at h
    injection h with h'
    rw [← h']
  | none =>
    rw [hg] at h
    split_ifs at h <;>
      (injection h with h'
       rw [← h']
       rfl)

theorem monoPres_internalize (p : Pdd) (s : LState) (v : Nat) (s1 : LState)
    (h : internalize_pdd p s = .ok (v, s1)) : MonoPres s s1 := by
  simp only [internalize_pdd] at h
  split_ifs at h with hone
  · cases h
    exact monoPres_linearize _ _ _
  · cases hfx : sz2fixplex p.width (fresh_var p.width (linearize p.width p.monos s).2.2).2 with
    | error e =>
      rw [hfx] at h
      cases h
    | ok r =>
      rw [hfx] at h
      cases h
      exact monoPres_trans _ _ _ (monoPres_linearize p.width p.monos s)
        (monoPres_of_eq _ _ (sz2fixplex_m_mono2var p.width
          (fresh_var p.width (linearize p.width p.monos s).2.2).2 r hfx))

theorem new_eq_monoPres (c : EqC) (s s' : LState) (h : new_eq c s = .ok s') :
    MonoPres s s' := by
  unfold new_eq at h
  cases hi : internalize_pdd c.p s with
  | error e =>
    rw [hi] at h
    cases h
  | ok r =>
    rw [hi] at h
    injection h with h'
    subst h'
    exact monoPres_trans _ _ _ (monoPres_internalize c.p s r.1 r.2 (by rw [hi]))
      (monoPres_of_eq _ _ rfl)

theorem assert_eq_monoPres (c : EqC) (s s' : LState) (h : assert_eq c s = .ok s') :
    MonoPres s s' := by
  unfold assert_eq at h
  cases hb : s.m_bool_var2row c.bvar with
  | none =>
    rw [hb] at h
    cases h
  | some vw =>
    rw [hb] at h
    dsimp only at h
    cases hfx : sz2fixplex c.p.width s with
    | error e =>
      rw [hfx] at h
      cases h
    | ok r =>
      rw [hfx] at h
      injection h with h'
      subst h'
      exact monoPres_of_eq _ _ (sz2fixplex_m_mono2var c.p.width s r hfx)

theorem new_le_monoPres (c : UleC) (s s' : LState) (h : new_le c s = .ok s') :
    MonoPres s s' := by
  unfold new_le at h
  cases hi : internalize_pdd c.lhs s with
  | error e =>
    rw [hi] at h
    cases h
  | ok r =>
    rw [hi] at h
    obtain ⟨rv, rs⟩ := r
    dsimp only at h
    cases hj : internalize_pdd c.rhs rs with
    | error e =>
      rw [hj] at h
      cases h
    | ok q =>
      rw [hj] at h
      obtain ⟨qv, qs⟩ := q
      dsimp only at h
      injection h with h'
      subst h'
      refine monoPres_trans _ _ _ (monoPres_internalize c.lhs s rv rs hi) ?_
      exact monoPres_trans _ _ _ (monoPres_internalize c.rhs rs qv qs hj)
        (monoPres_of_eq _ _ rfl)

theorem assert_le_monoPres (c : UleC) (s s' : LState) (h : assert_le c s = .ok s') :
    MonoPres s s' := by
  unfold assert_le at h
  cases hb : s.m_bool_var2row c.bvar with
  | none =>
    rw [hb] at h
    cases h
  | some vw =>
    rw [hb] at h
    dsimp only at h
    cases hfx : sz2fixplex c.lhs.width s with
    | error e =>
      rw [hfx] at h
      cases h
    | ok r =>
      rw [hfx] at h
      split_ifs at h
      all_goals
        first
        | exact Except.noConfusion h
        | (injection h with h'
           subst h'
           exact monoPres_of_eq _ _ (sz2fixplex_m_mono2var c.lhs.width s r hfx))

theorem lin_set_value_monoPres (szOf : Nat → Nat) (v value : Nat) (s s' : LState)
    (h : lin_set_value szOf v value s = .ok s') : MonoPres s s' := by
  unfold lin_set_value at h
  cases hfx : sz2fixplex (szOf v) s with
  | error e =>
    rw [hfx] at h
    cases h
  | ok r =>
    rw [hfx] at h
    injection h with h'
    subst h'
    refine monoPres_trans _ _ _ (monoPres_of_eq _ _ (sz2fixplex_m_mono2var (szOf v) s r hfx)) ?_
    exact monoPres_trans _ _ _ (monoPres_mono2var (szOf v) [v] r.2)
      (monoPres_of_eq _ _ rfl)

theorem lin_set_bound_monoPres (szOf : Nat → Nat) (v lo hi : Nat) (s s' : LState)
    (h : lin_set_bound szOf v lo hi s = .ok s') : MonoPres s s' := by
  unfold lin_set_bound at h
  cases hfx : sz2fixplex (szOf v) s with
  | error e =>
    rw [hfx] at h
    cases h
  | ok r =>
    rw [hfx] at h
    injection h with h'
    subst h'
    refine monoPres_trans _ _ _ (monoPres_of_eq _ _ (sz2fixplex_m_mono2var (szOf v) s r hfx)) ?_
    exact monoPres_trans _ _ _ (monoPres_mono2var (szOf v) [v] r.2)
      (monoPres_of_eq _ _ rfl)

theorem runOp_monoPres (szOf : Nat → Nat) (op : Op) (cs cs' : CState)
    (h : runOp szOf op cs = .ok cs') : MonoPres cs.lin cs'.lin := by
  cases op with
  | push =>
    injection h with h'
    subst h'
    exact monoPres_of_eq _ _ rfl
  | newEq c =>
    simp only [runOp] at h
    cases he : new_eq c cs.lin with
    | error e =>
      rw [he] at h
      cases h
    | ok l =>
      rw [he] at h
      injection h with h'
      subst h'
      exact new_eq_monoPres c cs.lin l he
  | assertEq c =>
    simp only [runOp] at h
    cases he : assert_eq c cs.lin with
    | error e =>
      rw [he] at h
      cases h
    | ok l =>
      rw [he] at h
      injection h with h'
      subst h'
      exact assert_eq_monoPres c cs.lin l he
  | newLe c =>
    simp only [runOp] at h
    cases he : new_le c cs.lin with
    | error e =>
      rw [he] at h
      cases h
    | ok l =>
      rw [he] at h
      injection h with h'
      subst h'
      exact new_le_monoPres c cs.lin l he
  | assertLe c =>
    simp only [runOp] at h
    cases he : assert_le c cs.lin with
    | error e =>
      rw [he] at h
      cases h
    | ok l =>
      rw [he] at h
      injection h with h'
      subst h'
      exact assert_le_monoPres c cs.lin l he
  | setValue v value =>
    simp only [runOp] at h
    cases he : lin_set_value szOf v value cs.lin with
    | error e =>
      rw [he] at h
      cases h
    | ok l =>
      rw [he] at h
      injection h with h'
      subst h'
      exact lin_set_value_monoPres szOf v value cs.lin l he
  | setBound v lo hi =>
    simp only [runOp] at h
    cases he : lin_set_bound szOf v lo hi cs.lin with
    | error e =>
      rw [he] at h
      cases h
    | ok l =>
      rw [he] at h
      injection h with h'
      subst h'
      exact lin_set_bound_monoPres szOf v lo hi cs.lin l he
  | vIntersectEq a v b pos =>
    injection h with h'
    subst h'
    exact monoPres_refl _
  | vIntersectUle v a b c d pos =>
    injection h with h'
    subst h'
    exact monoPres_refl _
  | vAddNonViable v value =>
    injection h with h'
    subst h'
    exact monoPres_refl _

theorem runOps_monoPres (szOf : Nat → Nat) (ops : List Op) (cs cs' : CState)
    (h : runOps szOf ops cs = .ok cs') : MonoPres cs.lin cs'.lin := by
  induction ops generalizing cs with
  | nil =>
    injection h with h'
    subst h'
    exact monoPres_refl _
  | cons op rest ih =>
    unfold runOps at h
    cases ho : runOp szOf op cs with
    | error e =>
      rw [ho] at h
      cases h
    | ok cs1 =>
      rw [ho] at h
      exact monoPres_trans _ _ _ (runOp_monoPres szOf op cs cs1 ho) (ih cs1 h)

theorem mono2var_found (sz : Nat) (vars : List Nat) (s : LState) :
    ∃ m, findMono sz vars ((mono2var sz vars s).2).m_mono2var = some m ∧
      m.var = (mono2var sz vars s).1 := by
  cases h0 : findMono sz vars s.m_mono2var with
  | some m1 =>
    refine ⟨m1, ?_, ?_⟩
    · simp only [mono2var, h0]
    · simp only [mono2var, h0]
  | none =>
    refine ⟨⟨sz, vars, s.m_sz2num_vars sz⟩, ?_, ?_⟩
    · simp only [mono2var, fresh_var, h0]
      exact findMono_cons_self sz vars _ _
    · simp only [mono2var, fresh_var, h0]

theorem mono2var_of_found (sz : Nat) (vars : List Nat) (s : LState) (m : MonoInfo)
    (h : findMono sz vars s.m_mono2var = some m) :
    mono2var sz vars s = (m.var, s) := by
  unfold mono2var
  rw [h]

/-- C9: interning is deterministic: once mono2var has interned the key
(sz, vars) as variable v, any further sequence of interface operations
(none of which pops) leaves an entry for that key in the table, so calling
mono2var again with the same key returns the same internal variable v; and
pvar2var is definitionally the one-element-monomial call, so the alias path
and the monomial path always agree. -/
theorem mono2var_deterministic (szOf : Nat → Nat) (ops : List Op)
    (sz : Nat) (vars : List Nat) (v : Nat) (s0 s1 : LState) (vib : VState)
    (cs2 : CState)
    (h1 : mono2var sz vars s0 = (v, s1))
    (h2 : runOps szOf ops ⟨s1, vib⟩ = .ok cs2) :
    (mono2var sz vars cs2.lin).1 = v ∧
    ∀ sz1 v1 t, pvar2var sz1 v1 t = mono2var sz1 [v1] t := by
  refine ⟨?_, fun _ _ _ => rfl⟩
  obtain ⟨m, hm, hv⟩ := mono2var_found sz vars s0
  rw [h1] at hm hv
  dsimp only at hm hv
  have hpres := runOps_monoPres szOf ops ⟨s1, vib⟩ cs2 h2
  have hm2 := hpres sz vars m hm
  rw [mono2var_of_found sz vars cs2.lin m hm2]
  exact hv

/-- Witness for C9: interning [0] at width 32 and re-interning after a push
returns the same variable, and pvar2var agrees with mono2var on [5]. -/
theorem mono2var_deterministic_witness :
    (mono2var 32 [0] (lin_push (mono2var 32 [0] (initC (fun _ => 32)).lin).2)).1 =
      (mono2var 32 [0] (initC (fun _ => 32)).lin).1 ∧
    pvar2var 32 5 (initC (fun _ => 32)).lin =
      mono2var 32 [5] (initC (fun _ => 32)).lin := by
  have h := mono2var_deterministic (fun _ => 32) [Op.push] 32 [0]
    (mono2var 32 [0] (initC (fun _ => 32)).lin).1
    (initC (fun _ => 32)).lin
    (mono2var 32 [0] (initC (fun _ => 32)).lin).2
    (initC (fun _ => 32)).vib
    ⟨lin_push (mono2var 32 [0] (initC (fun _ => 32)).lin).2, (initC (fun _ => 32)).vib⟩
    rfl rfl
  exact ⟨h.1, h.2 32 5 (initC (fun _ => 32)).lin⟩

theorem FixEq_refl (a : Fixplex) : FixEq a a := ⟨rfl, rfl, rfl, fun _ => rfl⟩

theorem FixEq_symm (a b : Fixplex) (h : FixEq a b) : FixEq b a :=
  ⟨h.1.symm, h.2.1.symm, h.2.2.1.symm, fun x => (h.2.2.2 x).symm⟩

theorem FixEq_trans (a b c : Fixplex) (h1 : FixEq a b) (h2 : FixEq b c) : FixEq a c :=
  ⟨h1.1.trans h2.1, h1.2.1.trans h2.2.1, h1.2.2.1.trans h2.2.2.1,
   fun x => (h1.2.2.2 x).trans (h2.2.2.2 x)⟩

theorem LEq_refl (s : LState) : LEq s s :=
  ⟨rfl, rfl, fun _ => rfl, rfl, rfl, fun _ => FixEq_refl _⟩

theorem LEq_of_eq (s t : LState) (h : s = t) : LEq s t := by
  rw [h]
  exact LEq_refl t

theorem LEq_trans (s t u : LState) (h1 : LEq s t) (h2 : LEq t u) : LEq s u :=
  ⟨h1.1.trans h2.1, h1.2.1.trans h2.2.1, fun z => (h1.2.2.1 z).trans (h2.2.2.1 z),
   h1.2.2.2.1.trans h2.2.2.2.1, h1.2.2.2.2.1.trans h2.2.2.2.2.1,
   fun sz => FixEq_trans _ _ _ (h1.2.2.2.2.2 sz) (h2.2.2.2.2.2 sz)⟩

theorem VEq_refl (s : VState) : VEq s s := ⟨fun _ => rfl, rfl⟩

theorem VEq_trans (s t u : VState) (h1 : VEq s t) (h2 : VEq t u) : VEq s u :=
  ⟨fun v => (h1.1 v).trans (h2.1 v), h1.2.trans h2.2⟩

theorem popFuel_zero (f : Nat) (s : LState) : popFuel f 0 s = s := by
  cases f <;> rfl

theorem undoEntry_trail (e : TrailI) (s : LState) :
    (undoEntry e s).m_trail = s.m_trail := by
  cases e <;> simp only [undoEntry] <;>
    first
    | rfl
    | (rcases s.m_rows with _ | ⟨⟨a, b⟩, rest⟩ <;> rfl)
    | (rcases s.m_monomials with _ | ⟨m, rest⟩ <;> rfl)

theorem popFuel_mono (f1 : Nat) : ∀ (f2 n : Nat) (s : LState),
    s.m_trail.length ≤ f1 → s.m_trail.length ≤ f2 →
    popFuel f1 n s = popFuel f2 n s := by
  induction f1 with
  | zero =>
    intro f2 n s h1 h2
    have htr : s.m_trail = [] := List.length_eq_zero.mp (Nat.le_zero.mp h1)
    cases f2 with
    | zero => rfl
    | succ f2 =>
      cases n with
      | zero => rfl
      | succ m => simp only [popFuel, htr]
  | succ f1 ih =>
    intro f2 n s h1 h2
    cases f2 with
    | zero =>
      have htr : s.m_trail = [] := List.length_eq_zero.mp (Nat.le_zero.mp h2)
      cases n with
      | zero => rfl
      | succ m => simp only [popFuel, htr]
    | succ f2 =>
      cases n with
      | zero => rfl
      | succ m =>
        cases htr : s.m_trail with
        | nil => simp only [popFuel, htr]
        | cons e rest =>
          have hr1 : rest.length ≤ f1 := by
            rw [htr] at h1
            simpa using h1
          have hr2 : rest.length ≤ f2 := by
            rw [htr] at h2
            simpa using h2
          cases e <;>
            (simp only [popFuel, htr]
             apply ih <;>
               first
               | simpa using hr1
               | simpa using hr2
               | (rw [undoEntry_trail]
                  simpa using hr1)
               | (rw [undoEntry_trail]
                  simpa using hr2))

theorem popFuel_fuel (f n : Nat) (s : LState) (h : s.m_trail.length ≤ f) :
    popFuel f n s = lin_pop n s :=
  popFuel_mono f s.m_trail.length n s h (le_refl _)

theorem lin_pop_push (n : Nat) (s : LState) :
    lin_pop (n + 1) (lin_push s) = lin_pop n s := by
  show popFuel (s.m_trail.length + 1) (n + 1) (lin_push s) = lin_pop n s
  simp only [lin_push, popFuel]
  exact popFuel_fuel s.m_trail.length n s (le_refl _)

theorem lin_pop_cons (s : LState) (e : TrailI) (rest : List TrailI)
    (htr : s.m_trail = e :: rest) (hne : e ≠ .inc_level) (n : Nat) :
    lin_pop (n + 1) s = lin_pop (n + 1) (undoEntry e { s with m_trail := rest }) := by
  cases e
  case inc_level => exact absurd rfl hne
  all_goals
    (show popFuel s.m_trail.length (n + 1) s = _
     rw [htr]
     simp only [List.length_cons, popFuel, htr]
     exact popFuel_fuel _ _ _ (le_of_eq (by rw [undoEntry_trail])))

theorem lin_pop_cons2 (e : TrailI) (hne : e ≠ TrailI.inc_level) (rest : List TrailI)
    (rows : List (Nat × Nat)) (f : Nat → Nat) (mono monos : List MonoInfo)
    (fix : List (Option Fixplex)) (bvr : Nat → Option (Nat × Nat)) (cr : List Nat)
    (n : Nat) :
    lin_pop (n + 1) ⟨e :: rest, rows, f, mono, monos, fix, bvr, cr⟩ =
      lin_pop (n + 1) (undoEntry e ⟨rest, rows, f, mono, monos, fix, bvr, cr⟩) :=
  lin_pop_cons _ e rest rfl hne n

theorem getFixD_putFix (sz : Nat) (fp : Fixplex) (s : LState) (z : Nat) :
    getFixD (putFix sz fp s) z = if z = sz then fp else getFixD s z := by
  unfold getFixD
  rw [getFix_putFix]
  split_ifs <;> rfl

theorem getFixD_eq_of_m_fix (s t : LState) (h : t.m_fix = s.m_fix) (z : Nat) :
    getFixD t z = getFixD s z := by
  unfold getFixD getFix
  rw [h]

theorem restore_bound_FixEq (a b : Fixplex) (h : FixEq a b) :
    FixEq a.restore_bound b.restore_bound := by
  obtain ⟨hr, hb, hi, hp⟩ := h
  unfold Fixplex.restore_bound
  rw [← hb]
  cases hh : a.bhist with
  | nil => exact ⟨hr, hb, hi, hp⟩
  | cons p rest =>
    obtain ⟨v, old⟩ := p
    refine ⟨hr, rfl, hi, ?_⟩
    intro x
    simp only [Function.update_apply]
    split_ifs
    · rfl
    · exact hp x

theorem del_row_FixEq (v : Nat) (a b : Fixplex) (h : FixEq a b) :
    FixEq (a.del_row v) (b.del_row v) := by
  obtain ⟨hr, hb, hi, hp⟩ := h
  refine ⟨?_, hb, hi, hp⟩
  show delRowList v a.rows = delRowList v b.rows
  rw [hr]

theorem restore_ineq_FixEq (a b : Fixplex) (h : FixEq a b) :
    FixEq a.restore_ineq b.restore_ineq := by
  obtain ⟨hr, hb, hi, hp⟩ := h
  refine ⟨hr, hb, ?_, hp⟩
  show a.ineqs.tail = b.ineqs.tail
  rw [hi]

theorem undoEntry_congr (e : TrailI) (s t : LState) (h : LEq s t) :
    LEq (undoEntry e s) (undoEntry e t) := by
  obtain ⟨h1, h2, h3, h4, h5, h6⟩ := h
  cases e with
  | inc_level => exact ⟨h1, h2, h3, h4, h5, h6⟩
  | add_var =>
    unfold undoEntry
    rw [← h2]
    cases hr : s.m_rows with
    | nil => exact ⟨h1, h2, h3, h4, h5, h6⟩
    | cons p rest =>
      obtain ⟨a, b⟩ := p
      refine ⟨h1, rfl, ?_, h4, h5, h6⟩
      intro z
      simp only [Function.update_apply]
      split_ifs
      · rw [h3 b]
      · exact h3 z
  | add_mono =>
    unfold undoEntry
    rw [← h5]
    cases hm : s.m_monomials with
    | nil => exact ⟨h1, h2, h3, h4, h5, h6⟩
    | cons m rest =>
      refine ⟨h1, h2, h3, ?_, rfl, h6⟩
      rw [h4]
  | set_bound =>
    unfold undoEntry
    rw [← h2]
    cases hr : s.m_rows with
    | nil => exact ⟨h1, h2, h3, h4, h5, h6⟩
    | cons p rest =>
      obtain ⟨a, b⟩ := p
      refine ⟨h1, rfl, h3, h4, h5, ?_⟩
      intro z
      show FixEq (getFixD (putFix b (getFixD s b).restore_bound s) z)
        (getFixD (putFix b (getFixD t b).restore_bound t) z)
      rw [getFixD_putFix, getFixD_putFix]
      split_ifs with hz
      · exact restore_bound_FixEq _ _ (h6 b)
      · exact h6 z
  | add_row =>
    unfold undoEntry
    rw [← h2]
    cases hr : s.m_rows with
    | nil => exact ⟨h1, h2, h3, h4, h5, h6⟩
    | cons p rest =>
      obtain ⟨a, b⟩ := p
      refine ⟨h1, rfl, h3, h4, h5, ?_⟩
      intro z
      show FixEq (getFixD (putFix b ((getFixD s b).del_row a) s) z)
        (getFixD (putFix b ((getFixD t b).del_row a) t) z)
      rw [getFixD_putFix, getFixD_putFix]
      split_ifs with hz
      · exact del_row_FixEq _ _ _ (h6 b)
      · exact h6 z
  | add_ineq =>
    unfold undoEntry
    rw [← h2]
    cases hr : s.m_rows with
    | nil => exact ⟨h1, h2, h3, h4, h5, h6⟩
    | cons p rest =>
      obtain ⟨a, b⟩ := p
      refine ⟨h1, rfl, h3, h4, h5, ?_⟩
      intro z
      show FixEq (getFixD (putFix b (getFixD s b).restore_ineq s) z)
        (getFixD (putFix b (getFixD t b).restore_ineq t) z)
      rw [getFixD_putFix, getFixD_putFix]
      split_ifs with hz
      · exact restore_ineq_FixEq _ _ (h6 b)
      · exact h6 z

theorem popFuel_congr (f : Nat) : ∀ (n : Nat) (s t : LState), LEq s t →
    LEq (popFuel f n s) (popFuel f n t) := by
  induction f with
  | zero =>
    intro n s t h
    exact h
  | succ f ih =>
    intro n s t h
    cases n with
    | zero =>
      rw [popFuel_zero, popFuel_zero]
      exact h
    | succ m =>
      obtain ⟨g1, g2, g3, g4, g5, g6⟩ := h
      cases htr : s.m_trail with
      | nil =>
        have htr2 : t.m_trail = [] := by rw [← g1, htr]
        simp only [popFuel, htr, htr2]
        exact ⟨g1, g2, g3, g4, g5, g6⟩
      | cons e rest =>
        have htr2 : t.m_trail = e :: rest := by rw [← g1, htr]
        have hLE : LEq { s with m_trail := rest } { t with m_trail := rest } :=
          ⟨rfl, g2, g3, g4, g5, g6⟩
        cases e <;>
          (simp only [popFuel, htr, htr2]
           first
           | exact ih m _ _ hLE
           | exact ih (m + 1) _ _ (undoEntry_congr _ _ _ hLE))

theorem lin_pop_congr (n : Nat) (s t : LState) (h : LEq s t) :
    LEq (lin_pop n s) (lin_pop n t) := by
  have h1 : s.m_trail = t.m_trail := h.1
  show LEq (popFuel s.m_trail.length n s) (popFuel t.m_trail.length n t)
  rw [← h1]
  exact popFuel_congr _ n s t h

theorem eraseMono_cons_self (a : MonoInfo) (tbl : List MonoInfo) :
    eraseMono a.sz a.vars (a :: tbl) = tbl := by
  unfold eraseMono
  rw [if_pos ⟨rfl, rfl⟩]

theorem restore_set_bounds (v lo hi : Nat) (fp : Fixplex) :
    FixEq (fp.set_bounds v lo hi).restore_bound fp := by
  refine ⟨rfl, rfl, rfl, ?_⟩
  intro x
  show Function.update (Function.update fp.bounds v (some (lo, hi))) v (fp.bounds v) x =
    fp.bounds x
  by_cases hx : x = v
  · subst hx
    rw [Function.update_same]
  · rw [Function.update_noteq hx, Function.update_noteq hx]

theorem restore_add_le (v w : Nat) (fp : Fixplex) :
    FixEq (fp.add_le v w).restore_ineq fp :=
  ⟨rfl, rfl, rfl, fun _ => rfl⟩

theorem restore_add_lt (v w : Nat) (fp : Fixplex) :
    FixEq (fp.add_lt v w).restore_ineq fp :=
  ⟨rfl, rfl, rfl, fun _ => rfl⟩

theorem del_add_row (v : Nat) (vars coeffs : List Nat) (fp : Fixplex) :
    FixEq ((fp.add_row v vars coeffs).del_row v) fp := by
  refine ⟨?_, rfl, rfl, fun _ => rfl⟩
  show delRowList v ((v, vars, coeffs) :: fp.rows) = fp.rows
  unfold delRowList
  rw [if_pos rfl]

theorem sz2fixplex_skel (sz : Nat) (s : LState) (r : Fixplex × LState)
    (h : sz2fixplex sz s = .ok r) :
    r.2.m_trail = s.m_trail ∧ r.2.m_rows = s.m_rows ∧
    r.2.m_sz2num_vars = s.m_sz2num_vars ∧ r.2.m_mono2var = s.m_mono2var ∧
    r.2.m_monomials = s.m_monomials ∧
    FixEq r.1 (getFixD s sz) ∧ (∀ z, FixEq (getFixD r.2 z) (getFixD s z)) := by
  unfold sz2fixplex at h
  cases hg : getFix s sz with
  | some b =>
    rw [hg] at h
    injection h with h'
    subst h'
    refine ⟨rfl, rfl, rfl, rfl, rfl, ?_, fun z => FixEq_refl _⟩
    unfold getFixD
    rw [hg]
    exact FixEq_refl b
  | none =>
    rw [hg] at h
    split_ifs at h <;>
      (injection h with h'
       subst h'
       refine ⟨rfl, rfl, rfl, rfl, rfl,
         by unfold getFixD
            rw [hg]
            exact ⟨rfl, rfl, rfl, fun _ => rfl⟩,
         fun z => by
           unfold getFixD
           rw [getFix_allocFix]
           by_cases hz : z = sz
           · rw [if_pos hz, hz, hg]
             exact ⟨rfl, rfl, rfl, fun _ => rfl⟩
           · rw [if_neg hz]
             exact FixEq_refl _⟩)

theorem fresh_var_pop (sz : Nat) (s : LState) (n : Nat) :
    LEq (lin_pop (n + 1) (fresh_var sz s).2) (lin_pop (n + 1) s) := by
  rw [show (fresh_var sz s).2 =
      ⟨.add_var :: s.m_trail, (0, sz) :: s.m_rows,
       Function.update s.m_sz2num_vars sz (s.m_sz2num_vars sz + 1),
       s.m_mono2var, s.m_monomials, s.m_fix, s.m_bool_var2row, s.m_created⟩ from rfl]
  rw [lin_pop_cons2 .add_var (fun hq => TrailI.noConfusion hq) _ _ _ _ _ _ _ _ n]
  apply lin_pop_congr
  refine ⟨rfl, rfl, ?_, rfl, rfl, fun _ => FixEq_refl _⟩
  intro z
  show Function.update (Function.update s.m_sz2num_vars sz (s.m_sz2num_vars sz + 1)) sz
      (Function.update s.m_sz2num_vars sz (s.m_sz2num_vars sz + 1) sz - 1) z =
    s.m_sz2num_vars z
  by_cases hz : z = sz
  · subst hz
    rw [Function.update_same, Function.update_same]
    omega
  · rw [Function.update_noteq hz, Function.update_noteq hz]

theorem mono2var_pop (sz : Nat) (vars : List Nat) (s : LState) (n : Nat) :
    LEq (lin_pop (n + 1) (mono2var sz vars s).2) (lin_pop (n + 1) s) := by
  cases h0 : findMono sz vars s.m_mono2var with
  | some m1 =>
    have heq : (mono2var sz vars s).2 = s := by
      unfold mono2var
      rw [h0]
    rw [heq]
    exact lin_pop_congr _ _ _ (LEq_refl s)
  | none =>
    have heq : (mono2var sz vars s).2 =
        ⟨.add_mono :: .add_var :: s.m_trail, (0, sz) :: s.m_rows,
         Function.update s.m_sz2num_vars sz (s.m_sz2num_vars sz + 1),
         ⟨sz, vars, s.m_sz2num_vars sz⟩ :: s.m_mono2var,
         ⟨sz, vars, s.m_sz2num_vars sz⟩ :: s.m_monomials,
         s.m_fix, s.m_bool_var2row, s.m_created⟩ := by
      unfold mono2var
      rw [h0]
      rfl
    rw [heq]
    rw [lin_pop_cons2 .add_mono (fun hq => TrailI.noConfusion hq) _ _ _ _ _ _ _ _ n]
    rw [show undoEntry .add_mono
        ⟨.add_var :: s.m_trail, (0, sz) :: s.m_rows,
         Function.update s.m_sz2num_vars sz (s.m_sz2num_vars sz + 1),
         ⟨sz, vars, s.m_sz2num_vars sz⟩ :: s.m_mono2var,
         ⟨sz, vars, s.m_sz2num_vars sz⟩ :: s.m_monomials,
         s.m_fix, s.m_bool_var2row, s.m_created⟩ =
      ⟨.add_var :: s.m_trail, (0, sz) :: s.m_rows,
       Function.update s.m_sz2num_vars sz (s.m_sz2num_vars sz + 1),
       eraseMono sz vars (⟨sz, vars, s.m_sz2num_vars sz⟩ :: s.m_mono2var),
       s.m_monomials, s.m_fix, s.m_bool_var2row, s.m_created⟩ from rfl]
    rw [lin_pop_cons2 .add_var (fun hq => TrailI.noConfusion hq) _ _ _ _ _ _ _ _ n]
    apply lin_pop_congr
    refine ⟨rfl, rfl, ?_, ?_, rfl, fun _ => FixEq_refl _⟩
    · intro z
      show Function.update (Function.update s.m_sz2num_vars sz (s.m_sz2num_vars sz + 1)) sz
          (Function.update s.m_sz2num_vars sz (s.m_sz2num_vars sz + 1) sz - 1) z =
        s.m_sz2num_vars z
      by_cases hz : z = sz
      · subst hz
        rw [Function.update_same, Function.update_same]
        omega
      · rw [Function.update_noteq hz, Function.update_noteq hz]
    · exact eraseMono_cons_self ⟨sz, vars, s.m_sz2num_vars sz⟩ s.m_mono2var

theorem linearize_pop (sz : Nat) (ms : List (Nat × List Nat)) :
    ∀ (s : LState) (n : Nat),
      LEq (lin_pop (n + 1) (linearize sz ms s).2.2) (lin_pop (n + 1) s) := by
  induction ms with
  | nil =>
    intro s n
    exact lin_pop_congr _ _ _ (LEq_refl s)
  | cons mm rest ih =>
    intro s n
    exact LEq_trans _ _ _ (ih (mono2var sz mm.2 s).2 n) (mono2var_pop sz mm.2 s n)

theorem pushBound_pop (v sz : Nat) (fp : Fixplex) (s1 : LState) (n : Nat)
    (hf : FixEq fp.restore_bound (getFixD s1 sz)) :
    LEq (lin_pop (n + 1) (pushBound v sz fp s1)) (lin_pop (n + 1) s1) := by
  rw [show pushBound v sz fp s1 =
      ⟨.set_bound :: s1.m_trail, (v, sz) :: s1.m_rows, s1.m_sz2num_vars,
       s1.m_mono2var, s1.m_monomials, setFix s1.m_fix sz (some fp),
       s1.m_bool_var2row, s1.m_created⟩ from rfl]
  rw [lin_pop_cons2 .set_bound (fun hq => TrailI.noConfusion hq) _ _ _ _ _ _ _ _ n]
  apply lin_pop_congr
  refine ⟨rfl, rfl, fun _ => rfl, rfl, rfl, ?_⟩
  intro z
  show FixEq (getFixD (putFix sz (getFixD (putFix sz fp s1) sz).restore_bound
      (putFix sz fp s1)) z) (getFixD s1 z)
  have hin : getFixD (putFix sz fp s1) sz = fp := by
    rw [getFixD_putFix, if_pos rfl]
  rw [hin, getFixD_putFix]
  split_ifs with hz
  · subst hz
    exact hf
  · rw [getFixD_putFix, if_neg hz]
    exact FixEq_refl _

theorem pushIneq_pop (v sz : Nat) (fp : Fixplex) (s1 : LState) (n : Nat)
    (hf : FixEq fp.restore_ineq (getFixD s1 sz)) :
    LEq (lin_pop (n + 1)
      { (putFix sz fp s1) with m_trail := .add_ineq :: s1.m_trail,
                               m_rows := (v, sz) :: s1.m_rows }) (lin_pop (n + 1) s1) := by
  rw [show ({ (putFix sz fp s1) with m_trail := .add_ineq :: s1.m_trail,
                                     m_rows := (v, sz) :: s1.m_rows } : LState) =
      ⟨.add_ineq :: s1.m_trail, (v, sz) :: s1.m_rows, s1.m_sz2num_vars,
       s1.m_mono2var, s1.m_monomials, setFix s1.m_fix sz (some fp),
       s1.m_bool_var2row, s1.m_created⟩ from rfl]
  rw [lin_pop_cons2 .add_ineq (fun hq => TrailI.noConfusion hq) _ _ _ _ _ _ _ _ n]
  apply lin_pop_congr
  refine ⟨rfl, rfl, fun _ => rfl, rfl, rfl, ?_⟩
  intro z
  show FixEq (getFixD (putFix sz (getFixD (putFix sz fp s1) sz).restore_ineq
      (putFix sz fp s1)) z) (getFixD s1 z)
  have hin : getFixD (putFix sz fp s1) sz = fp := by
    rw [getFixD_putFix, if_pos rfl]
  rw [hin, getFixD_putFix]
  split_ifs with hz
  · subst hz
    exact hf
  · rw [getFixD_putFix, if_neg hz]
    exact FixEq_refl _

theorem pushRow_pop (v sz : Nat) (fp : Fixplex) (s1 : LState) (n : Nat)
    (hf : FixEq (fp.del_row v) (getFixD s1 sz)) :
    LEq (lin_pop (n + 1)
      { (putFix sz fp s1) with m_trail := .add_row :: s1.m_trail,
                               m_rows := (v, sz) :: s1.m_rows }) (lin_pop (n + 1) s1) := by
  rw [show ({ (putFix sz fp s1) with m_trail := .add_row :: s1.m_trail,
                                     m_rows := (v, sz) :: s1.m_rows } : LState) =
      ⟨.add_row :: s1.m_trail, (v, sz) :: s1.m_rows, s1.m_sz2num_vars,
       s1.m_mono2var, s1.m_monomials, setFix s1.m_fix sz (some fp),
       s1.m_bool_var2row, s1.m_created⟩ from rfl]
  rw [lin_pop_cons2 .add_row (fun hq => TrailI.noConfusion hq) _ _ _ _ _ _ _ _ n]
  apply lin_pop_congr
  refine ⟨rfl, rfl, fun _ => rfl, rfl, rfl, ?_⟩
  intro z
  show FixEq (getFixD (putFix sz ((getFixD (putFix sz fp s1) sz).del_row v)
      (putFix sz fp s1)) z) (getFixD s1 z)
  have hin : getFixD (putFix sz fp s1) sz = fp := by
    rw [getFixD_putFix, if_pos rfl]
  rw [hin, getFixD_putFix]
  split_ifs with hz
  · subst hz
    exact hf
  · rw [getFixD_putFix, if_neg hz]
    exact FixEq_refl _

theorem internalize_pop (p : Pdd) (s : LState) (v : Nat) (s1 : LState)
    (h : internalize_pdd p s = .ok (v, s1)) (n : Nat) :
    LEq (lin_pop (n + 1) s1) (lin_pop (n + 1) s) := by
  simp only [internalize_pdd] at h
  split_ifs at h with hone
  · cases h
    exact linearize_pop p.width p.monos s n
  · cases hfx : sz2fixplex p.width (fresh_var p.width (linearize p.width p.monos s).2.2).2 with
    | error e =>
      rw [hfx] at h
      cases h
    | ok r =>
      rw [hfx] at h
      cases h
      obtain ⟨t1, t2, t3, t4, t5, tf, tz⟩ := sz2fixplex_skel _ _ r hfx
      have hLr : LEq r.2 (fresh_var p.width (linearize p.width p.monos s).2.2).2 :=
        ⟨t1, t2, fun z => by rw [t3], t4, t5, tz⟩
      have hf : FixEq
          ((Fixplex.add_row (fresh_var p.width (linearize p.width p.monos s).2.2).1
            ((linearize p.width p.monos s).1 ++
              [(fresh_var p.width (linearize p.width p.monos s).2.2).1])
            ((linearize p.width p.monos s).2.1 ++ [2 ^ p.width - 1]) r.1).del_row
            (fresh_var p.width (linearize p.width p.monos s).2.2).1)
          (getFixD r.2 p.width) :=
        FixEq_trans _ _ _ (del_add_row _ _ _ _)
          (FixEq_trans _ _ _ tf (FixEq_symm _ _ (tz p.width)))
      exact LEq_trans _ _ _
        (pushRow_pop (fresh_var p.width (linearize p.width p.monos s).2.2).1 p.width
          (Fixplex.add_row (fresh_var p.width (linearize p.width p.monos s).2.2).1
            ((linearize p.width p.monos s).1 ++
              [(fresh_var p.width (linearize p.width p.monos s).2.2).1])
            ((linearize p.width p.monos s).2.1 ++ [2 ^ p.width - 1]) r.1) r.2 n hf)
        (LEq_trans _ _ _ (lin_pop_congr (n + 1) _ _ hLr)
          (LEq_trans _ _ _ (fresh_var_pop p.width (linearize p.width p.monos s).2.2 n)
            (linearize_pop p.width p.monos s n)))

theorem new_eq_pop (c : EqC) (s t : LState) (h : new_eq c s = .ok t) (n : Nat) :
    LEq (lin_pop (n + 1) t) (lin_pop (n + 1) s) := by
  unfold new_eq at h
  cases hi : internalize_pdd c.p s with
  | error e =>
    rw [hi] at h
    cases h
  | ok r =>
    rw [hi] at h
    obtain ⟨rv, rs⟩ := r
    dsimp only at h
    injection h with h'
    subst h'
    refine LEq_trans _ _ _ (lin_pop_congr (n + 1) _ rs ?_)
      (internalize_pop c.p s rv rs hi n)
    exact ⟨rfl, rfl, fun _ => rfl, rfl, rfl, fun _ => FixEq_refl _⟩

theorem new_le_pop (c : UleC) (s t : LState) (h : new_le c s = .ok t) (n : Nat) :
    LEq (lin_pop (n + 1) t) (lin_pop (n + 1) s) := by
  unfold new_le at h
  cases hi : internalize_pdd c.lhs s with
  | error e =>
    rw [hi] at h
    cases h
  | ok r =>
    rw [hi] at h
    obtain ⟨rv, rs⟩ := r
    dsimp only at h
    cases hj : internalize_pdd c.rhs rs with
    | error e =>
      rw [hj] at h
      cases h
    | ok q =>
      rw [hj] at h
      obtain ⟨qv, qs⟩ := q
      dsimp only at h
      injection h with h'
      subst h'
      refine LEq_trans _ _ _ (lin_pop_congr (n + 1) _ qs ?_)
        (LEq_trans _ _ _ (internalize_pop c.rhs rs qv qs hj n)
          (internalize_pop c.lhs s rv rs hi n))
      exact ⟨rfl, rfl, fun _ => rfl, rfl, rfl, fun _ => FixEq_refl _⟩

theorem assert_eq_pop (c : EqC) (s t : LState) (h : assert_eq c s = .ok t) (n : Nat) :
    LEq (lin_pop (n + 1) t) (lin_pop (n + 1) s) := by
  unfold assert_eq at h
  cases hb : s.m_bool_var2row c.bvar with
  | none =>
    rw [hb] at h
    cases h
  | some vw =>
    rw [hb] at h
    dsimp only at h
    cases hfx : sz2fixplex c.p.width s with
    | error e =>
      rw [hfx] at h
      cases h
    | ok r =>
      rw [hfx] at h
      injection h with h'
      subst h'
      obtain ⟨t1, t2, t3, t4, t5, tf, tz⟩ := sz2fixplex_skel _ _ r hfx
      have hLs : LEq r.2 s := ⟨t1, t2, fun z => by rw [t3], t4, t5, tz⟩
      have hr : FixEq r.1 (getFixD r.2 c.p.width) :=
        FixEq_trans _ _ _ tf (FixEq_symm _ _ (tz c.p.width))
      cases hp : c.pos
      · exact LEq_trans _ _ _
          (pushBound_pop vw.1 c.p.width (r.1.set_bounds vw.1 1 0) r.2 n
            (FixEq_trans _ _ _ (restore_set_bounds _ _ _ _) hr))
          (lin_pop_congr (n + 1) r.2 s hLs)
      · exact LEq_trans _ _ _
          (pushBound_pop vw.1 c.p.width (r.1.set_bounds vw.1 0 0) r.2 n
            (FixEq_trans _ _ _ (restore_set_bounds _ _ _ _) hr))
          (lin_pop_congr (n + 1) r.2 s hLs)

set_option maxHeartbeats 1000000 in
theorem assert_le_pop (c : UleC) (s t : LState) (h : assert_le c s = .ok t) (n : Nat) :
    LEq (lin_pop (n + 1) t) (lin_pop (n + 1) s) := by
  unfold assert_le at h
  cases hb : s.m_bool_var2row c.bvar with
  | none =>
    rw [hb] at h
    cases h
  | some vw =>
    rw [hb] at h
    dsimp only at h
    cases hfx : sz2fixplex c.lhs.width s with
    | error e =>
      rw [hfx] at h
      cases h
    | ok r =>
      obtain ⟨rf, rs⟩ := r
      rw [hfx] at h
      dsimp only at h
      obtain ⟨t1, t2, t3, t4, t5, tf, tz⟩ := sz2fixplex_skel _ _ _ hfx
      have hLs : LEq rs s := ⟨t1, t2, fun z => by rw [t3], t4, t5, tz⟩
      have hr : FixEq rf (getFixD rs c.lhs.width) :=
        FixEq_trans _ _ _ tf (FixEq_symm _ _ (tz c.lhs.width))
      split_ifs at h
      · injection h with h'
        subst h'
        exact LEq_trans _ _ _
          (pushBound_pop vw.1 c.lhs.width (rf.set_bounds vw.1 0 c.rhs.val) rs n
            (FixEq_trans _ _ _ (restore_set_bounds _ _ _ _) hr))
          (lin_pop_congr (n + 1) rs s hLs)
      · injection h with h'
        subst h'
        exact LEq_trans _ _ _
          (pushBound_pop vw.1 c.lhs.width (rf.set_bounds vw.1 (c.rhs.val + 1) 0) rs n
            (FixEq_trans _ _ _ (restore_set_bounds _ _ _ _) hr))
          (lin_pop_congr (n + 1) rs s hLs)
      · injection h with h'
        subst h'
        exact LEq_trans _ _ _
          (pushBound_pop vw.2 c.lhs.width (rf.set_bounds vw.2 c.lhs.val 0) rs n
            (FixEq_trans _ _ _ (restore_set_bounds _ _ _ _) hr))
          (lin_pop_congr (n + 1) rs s hLs)
      · injection h with h'
        subst h'
        exact LEq_trans _ _ _
          (pushBound_pop vw.2 c.lhs.width (rf.set_bounds vw.2 0 (c.lhs.val - 1)) rs n
            (FixEq_trans _ _ _ (restore_set_bounds _ _ _ _) hr))
          (lin_pop_congr (n + 1) rs s hLs)
      · injection h with h'
        subst h'
        exact LEq_trans _ _ _
          (pushIneq_pop vw.1 c.lhs.width (rf.add_le vw.1 vw.2) rs n
            (FixEq_trans _ _ _ (restore_add_le _ _ _) hr))
          (lin_pop_congr (n + 1) rs s hLs)
      · injection h with h'
        subst h'
        exact LEq_trans _ _ _
          (pushIneq_pop vw.1 c.lhs.width (rf.add_lt vw.2 vw.1) rs n
            (FixEq_trans _ _ _ (restore_add_lt _ _ _) hr))
          (lin_pop_congr (n + 1) rs s hLs)

theorem lin_set_value_pop (szOf : Nat → Nat) (v value : Nat) (s t : LState)
    (h : lin_set_value szOf v value s = .ok t) (n : Nat) :
    LEq (lin_pop (n + 1) t) (lin_pop (n + 1) s) := by
  unfold lin_set_value at h
  cases hfx : sz2fixplex (szOf v) s with
  | error e =>
    rw [hfx] at h
    cases h
  | ok r =>
    rw [hfx] at h
    injection h with h'
    subst h'
    obtain ⟨t1, t2, t3, t4, t5, tf, tz⟩ := sz2fixplex_skel _ _ r hfx
    have hLs : LEq r.2 s := ⟨t1, t2, fun z => by rw [t3], t4, t5, tz⟩
    have hmv : (pvar2var (szOf v) v r.2).2.m_fix = r.2.m_fix := mono2var_m_fix _ _ _
    refine LEq_trans _ _ _ (pushBound_pop _ _ _ _ n ?_)
      (LEq_trans _ _ _ (mono2var_pop (szOf v) [v] r.2 n) (lin_pop_congr (n + 1) r.2 s hLs))
    refine FixEq_trans _ _ _ (restore_set_bounds _ _ _ _) ?_
    rw [getFixD_eq_of_m_fix r.2 _ hmv]
    exact FixEq_trans _ _ _ tf (FixEq_symm _ _ (tz (szOf v)))

theorem lin_set_bound_pop (szOf : Nat → Nat) (v lo hi : Nat) (s t : LState)
    (h : lin_set_bound szOf v lo hi s = .ok t) (n : Nat) :
    LEq (lin_pop (n + 1) t) (lin_pop (n + 1) s) := by
  unfold lin_set_bound at h
  cases hfx : sz2fixplex (szOf v) s with
  | error e =>
    rw [hfx] at h
    cases h
  | ok r =>
    rw [hfx] at h
    injection h with h'
    subst h'
    obtain ⟨t1, t2, t3, t4, t5, tf, tz⟩ := sz2fixplex_skel _ _ r hfx
    have hLs : LEq r.2 s := ⟨t1, t2, fun z => by rw [t3], t4, t5, tz⟩
    have hmv : (pvar2var (szOf v) v r.2).2.m_fix = r.2.m_fix := mono2var_m_fix _ _ _
    refine LEq_trans _ _ _ (pushBound_pop _ _ _ _ n ?_)
      (LEq_trans _ _ _ (mono2var_pop (szOf v) [v] r.2 n) (lin_pop_congr (n + 1) r.2 s hLs))
    refine FixEq_trans _ _ _ (restore_set_bounds _ _ _ _) ?_
    rw [getFixD_eq_of_m_fix r.2 _ hmv]
    exact FixEq_trans _ _ _ tf (FixEq_symm _ _ (tz (szOf v)))

theorem pop_push_viable (st : VState) (v : Nat) (v2 : ViableSet) :
    VEq (pop_viable { push_viable v st with
        m_viable := Function.update (push_viable v st).m_viable v v2 }) st := by
  refine ⟨?_, rfl⟩
  intro x
  show Function.update (Function.update st.m_viable v v2) v (st.m_viable v) x =
    st.m_viable x
  by_cases hx : x = v
  · subst hx
    rw [Function.update_same]
  · rw [Function.update_noteq hx, Function.update_noteq hx]

theorem viable_op_pop (st : VState) (v : Nat) (v2 : ViableSet) :
    VEq (pop_viableN
      (((v, st.m_viable v) :: st.m_viable_trail).length - st.m_viable_trail.length)
      { push_viable v st with
        m_viable := Function.update (push_viable v st).m_viable v v2 }) st := by
  rw [show ((v, st.m_viable v) :: st.m_viable_trail).length -
      st.m_viable_trail.length = 1 from by
    simp only [List.length_cons]
    omega]
  exact pop_push_viable st v v2

theorem pop_viable_congr (s t : VState) (h : VEq s t) :
    VEq (pop_viable s) (pop_viable t) := by
  obtain ⟨h1, h2⟩ := h
  unfold pop_viable
  rw [← h2]
  cases ht : s.m_viable_trail with
  | nil => exact ⟨h1, h2⟩
  | cons p rest =>
    obtain ⟨v, vs⟩ := p
    refine ⟨?_, rfl⟩
    intro x
    simp only [Function.update_apply]
    split_ifs
    · rfl
    · exact h1 x

theorem pop_viableN_congr (k : Nat) : ∀ (s t : VState), VEq s t →
    VEq (pop_viableN k s) (pop_viableN k t) := by
  induction k with
  | zero =>
    intro s t h
    exact h
  | succ k ih =>
    intro s t h
    exact ih _ _ (pop_viable_congr s t h)

theorem pop_viableN_add (a b : Nat) : ∀ (st : VState),
    pop_viableN (a + b) st = pop_viableN b (pop_viableN a st) := by
  induction a with
  | zero =>
    intro st
    rw [Nat.zero_add]
    rfl
  | succ a ih =>
    intro st
    rw [show a + 1 + b = (a + b) + 1 from by omega]
    show pop_viableN (a + b) (pop_viable st) = _
    exact ih (pop_viable st)

theorem pushCount_cons (op : Op) (rest : List Op) :
    pushCount (op :: rest) = pushCount [op] + pushCount rest := by
  cases op <;> simp [pushCount] <;> omega

theorem runOp_pop (szOf : Nat → Nat) (op : Op) (cs cs1 : CState)
    (h : runOp szOf op cs = .ok cs1) :
    (∀ n, 0 < n → LEq (lin_pop (n + pushCount [op]) cs1.lin) (lin_pop n cs.lin)) ∧
    cs.vib.m_viable_trail.length ≤ cs1.vib.m_viable_trail.length ∧
    VEq (pop_viableN (cs1.vib.m_viable_trail.length - cs.vib.m_viable_trail.length)
      cs1.vib) cs.vib := by
  cases op with
  | push =>
    injection h with h'
    subst h'
    refine ⟨fun n hn => LEq_of_eq _ _ (lin_pop_push n cs.lin), le_refl _, ?_⟩
    show VEq (pop_viableN
      (cs.vib.m_viable_trail.length - cs.vib.m_viable_trail.length) cs.vib) cs.vib
    rw [Nat.sub_self]
    exact VEq_refl _
  | newEq c =>
    simp only [runOp] at h
    cases he : new_eq c cs.lin with
    | error e =>
      rw [he] at h
      cases h
    | ok l =>
      rw [he] at h
      injection h with h'
      subst h'
      refine ⟨fun n hn => ?_, le_refl _, ?_⟩
      · obtain ⟨m, rfl⟩ : ∃ m, n = m + 1 := ⟨n - 1, by omega⟩
        exact new_eq_pop c cs.lin l he m
      · show VEq (pop_viableN
          (cs.vib.m_viable_trail.length - cs.vib.m_viable_trail.length) cs.vib) cs.vib
        rw [Nat.sub_self]
        exact VEq_refl _
  | assertEq c =>
    simp only [runOp] at h
    cases he : assert_eq c cs.lin with
    | error e =>
      rw [he] at h
      cases h
    | ok l =>
      rw [he] at h
      injection h with h'
      subst h'
      refine ⟨fun n hn => ?_, le_refl _, ?_⟩
      · obtain ⟨m, rfl⟩ : ∃ m, n = m + 1 := ⟨n - 1, by omega⟩
        exact assert_eq_pop c cs.lin l he m
      · show VEq (pop_viableN
          (cs.vib.m_viable_trail.length - cs.vib.m_viable_trail.length) cs.vib) cs.vib
        rw [Nat.sub_self]
        exact VEq_refl _
  | newLe c =>
    simp only [runOp] at h
    cases he : new_le c cs.lin with
    | error e =>
      rw [he] at h
      cases h
    | ok l =>
      rw [he] at h
      injection h with h'
      subst h'
      refine ⟨fun n hn => ?_, le_refl _, ?_⟩
      · obtain ⟨m, rfl⟩ : ∃ m, n = m + 1 := ⟨n - 1, by omega⟩
        exact new_le_pop c cs.lin l he m
      · show VEq (pop_viableN
          (cs.vib.m_viable_trail.length - cs.vib.m_viable_trail.length) cs.vib) cs.vib
        rw [Nat.sub_self]
        exact VEq_refl _
  | assertLe c =>
    simp only [runOp] at h
    cases he : assert_le c cs.lin with
    | error e =>
      rw [he] at h
      cases h
    | ok l =>
      rw [he] at h
      injection h with h'
      subst h'
      refine ⟨fun n hn => ?_, le_refl _, ?_⟩
      · obtain ⟨m, rfl⟩ : ∃ m, n = m + 1 := ⟨n - 1, by omega⟩
        exact assert_le_pop c cs.lin l he m
      · show VEq (pop_viableN
          (cs.vib.m_viable_trail.length - cs.vib.m_viable_trail.length) cs.vib) cs.vib
        rw [Nat.sub_self]
        exact VEq_refl _
  | setValue v value =>
    simp only [runOp] at h
    cases he : lin_set_value szOf v value cs.lin with
    | error e =>
      rw [he] at h
      cases h
    | ok l =>
      rw [he] at h
      injection h with h'
      subst h'
      refine ⟨fun n hn => ?_, le_refl _, ?_⟩
      · obtain ⟨m, rfl⟩ : ∃ m, n = m + 1 := ⟨n - 1, by omega⟩
        exact lin_set_value_pop szOf v value cs.lin l he m
      · show VEq (pop_viableN
          (cs.vib.m_viable_trail.length - cs.vib.m_viable_trail.length) cs.vib) cs.vib
        rw [Nat.sub_self]
        exact VEq_refl _
  | setBound v lo hi =>
    simp only [runOp] at h
    cases he : lin_set_bound szOf v lo hi cs.lin with
    | error e =>
      rw [he] at h
      cases h
    | ok l =>
      rw [he] at h
      injection h with h'
      subst h'
      refine ⟨fun n hn => ?_, le_refl _, ?_⟩
      · obtain ⟨m, rfl⟩ : ∃ m, n = m + 1 := ⟨n - 1, by omega⟩
        exact lin_set_bound_pop szOf v lo hi cs.lin l he m
      · show VEq (pop_viableN
          (cs.vib.m_viable_trail.length - cs.vib.m_viable_trail.length) cs.vib) cs.vib
        rw [Nat.sub_self]
        exact VEq_refl _
  | vIntersectEq a v b pos =>
    injection h with h'
    subst h'
    exact ⟨fun n hn => LEq_refl _, Nat.le_succ _, viable_op_pop cs.vib v _⟩
  | vIntersectUle v a b cc d pos =>
    injection h with h'
    subst h'
    exact ⟨fun n hn => LEq_refl _, Nat.le_succ _, viable_op_pop cs.vib v _⟩
  | vAddNonViable v value =>
    injection h with h'
    subst h'
    exact ⟨fun n hn => LEq_refl _, Nat.le_succ _, viable_op_pop cs.vib v _⟩

theorem runOps_pop (szOf : Nat → Nat) (ops : List Op) :
    ∀ (cs cs1 : CState), runOps szOf ops cs = .ok cs1 →
      (∀ n, 0 < n → LEq (lin_pop (n + pushCount ops) cs1.lin) (lin_pop n cs.lin)) ∧
      cs.vib.m_viable_trail.length ≤ cs1.vib.m_viable_trail.length ∧
      VEq (pop_viableN (cs1.vib.m_viable_trail.length - cs.vib.m_viable_trail.length)
        cs1.vib) cs.vib := by
  induction ops with
  | nil =>
    intro cs cs1 h
    injection h with h'
    subst h'
    refine ⟨fun n hn => LEq_refl _, le_refl _, ?_⟩
    rw [Nat.sub_self]
    exact VEq_refl _
  | cons op rest ih =>
    intro cs cs1 h
    unfold runOps at h
    cases ho : runOp szOf op cs with
    | error e =>
      rw [ho] at h
      cases h
    | ok csm =>
      rw [ho] at h
      obtain ⟨ihL, ihlen, ihV⟩ := ih csm cs1 h
      obtain ⟨opL, oplen, opV⟩ := runOp_pop szOf op cs csm ho
      refine ⟨?_, le_trans oplen ihlen, ?_⟩
      · intro n hn
        rw [pushCount_cons]
        rw [show n + (pushCount [op] + pushCount rest) =
            (n + pushCount [op]) + pushCount rest from by omega]
        exact LEq_trans _ _ _ (ihL (n + pushCount [op]) (by omega)) (opL n hn)
      · have hsub : cs1.vib.m_viable_trail.length - cs.vib.m_viable_trail.length =
            (cs1.vib.m_viable_trail.length - csm.vib.m_viable_trail.length) +
            (csm.vib.m_viable_trail.length - cs.vib.m_viable_trail.length) := by
          omega
        rw [hsub, pop_viableN_add]
        exact VEq_trans _ _ _ (pop_viableN_congr _ _ _ ihV) opV

/-- C1: trail exactness: for any sequence of interface operations run from a
state just after a push, popping through all the level markers the sequence
itself pushed plus the initial one restores every queryable piece of linear
state — trail, undo rows, per-width variable counters, interning table,
monomial list, and the content (bounds, bound history, rows, inequality
edges) of every per-width engine — to its pre-push value, and popping the
viable trail down to its prior length restores every variable's domain and
the viable trail. -/
theorem trail_exactness (szOf : Nat → Nat) (ops : List Op) (cs0 cs1 : CState)
    (h : runOps szOf ops { cs0 with lin := lin_push cs0.lin } = .ok cs1) :
    LEq (lin_pop (pushCount ops + 1) cs1.lin) cs0.lin ∧
    VEq (pop_viableN
      (cs1.vib.m_viable_trail.length - cs0.vib.m_viable_trail.length) cs1.vib)
      cs0.vib := by
  obtain ⟨hL, hlen, hV⟩ := runOps_pop szOf ops _ cs1 h
  constructor
  · have h1 := hL 1 (by omega)
    have h2 : lin_pop 1 (lin_push cs0.lin) = cs0.lin := by
      rw [show (1 : Nat) = 0 + 1 from rfl, lin_pop_push]
      exact popFuel_zero _ _
    rw [show pushCount ops + 1 = 1 + pushCount ops from by omega]
    exact LEq_trans _ _ _ h1 (LEq_of_eq _ _ h2)
  · exact hV

/-- Witness for C1: a run with a bound injection, an inner push and a
viable-domain exclusion is restored by the matching pops. -/
theorem trail_exactness_witness :
    LEq
      (lin_pop (pushCount [Op.setBound 0 0 1, Op.push, Op.vAddNonViable 0 1] + 1)
        ((Except.toOption
            (runOps (fun _ => 32) [Op.setBound 0 0 1, Op.push, Op.vAddNonViable 0 1]
              { initC (fun _ => 32) with lin := lin_push (initC (fun _ => 32)).lin })).getD
          { initC (fun _ => 32) with lin := lin_push (initC (fun _ => 32)).lin }).lin)
      (initC (fun _ => 32)).lin ∧
    VEq
      (pop_viableN
        (((Except.toOption
              (runOps (fun _ => 32) [Op.setBound 0 0 1, Op.push, Op.vAddNonViable 0 1]
                { initC (fun _ => 32) with lin := lin_push (initC (fun _ => 32)).lin })).getD
            { initC (fun _ => 32) with
                lin := lin_push (initC (fun _ => 32)).lin }).vib.m_viable_trail.length -
          (initC (fun _ => 32)).vib.m_viable_trail.length)
        ((Except.toOption
            (runOps (fun _ => 32) [Op.setBound 0 0 1, Op.push, Op.vAddNonViable 0 1]
              { initC (fun _ => 32) with lin := lin_push (initC (fun _ => 32)).lin })).getD
          { initC (fun _ => 32) with lin := lin_push (initC (fun _ => 32)).lin }).vib)
      (initC (fun _ => 32)).vib := by
  exact trail_exactness (fun _ => 32) [Op.setBound 0 0 1, Op.push, Op.vAddNonViable 0 1]
    (initC (fun _ => 32)) _ rfl

end Polysat
